import Mathlib

/-!
# Verification of the text-region detection pipeline (`src/main.rs`)

This file shallowly embeds the pipeline of `src/main.rs` — activation
filtering (`get_pixel_activation`, `difference_filter`), activation
statistics (`get_activation_stats`), connected-component extraction
(`get_lines`), bounding geometry (`get_lines_stats`), size/density
filtering (`sanitise_lines`) and the two-color text heuristic
(`get_line_colors`, `get_most_common_color`, `get_text_lines`) — and
proves or refutes the frozen claims about it.

Modelling conventions:
* `u32` coordinates and `u8` channel values become `ℕ`; no arithmetic in
  the translated code paths can overflow `u32`/`u8` ranges except where
  noted in the relevant definition's comment.
* The activation map is stored by the source as a 3-channel grayscale
  image whose channels are always equal; all readers use channel 0 and
  the only writer writes `[0,0,0]`/`[d,d,d]`.  We model it as a grid of a
  single intensity per pixel (`Grid`).
* `f32` arithmetic is modelled by `ℚ` (exact arithmetic); every place
  where the source's `f32` rounding could deviate from `ℚ` is noted at
  the definition.
* The flood fill in `get_lines` diverges for `threshold = 0` (a zeroed
  pixel still compares `>= 0` and is re-pushed forever as soon as the map
  has two or more pixels).  The loop is therefore embedded with explicit
  fuel, returning `Option`; `none` models divergence.  The termination
  claim proves the fuel bound used in the definition always suffices
  when `1 ≤ threshold`.
-/

/-- A pixel coordinate `(x, y)`, as in the source's `(u32, u32)` pairs. -/
abbrev Coord := ℕ × ℕ

/-- The activation map: dimensions plus the channel-0 intensity of every
coordinate (the source's `ImageBuffer` holding `[d, d, d]` pixels). -/
structure Grid where
  w : ℕ
  h : ℕ
  val : Coord → ℕ

/-- Writing `image::Rgb([0,0,0])` at coordinate `c` ("deactivating" it). -/
def Grid.zero (g : Grid) (c : Coord) : Grid :=
  ⟨g.w, g.h, fun d => if d = c then 0 else g.val d⟩

@[simp] lemma Grid.zero_w (g : Grid) (c : Coord) : (g.zero c).w = g.w := rfl

@[simp] lemma Grid.zero_h (g : Grid) (c : Coord) : (g.zero c).h = g.h := rfl

lemma Grid.zero_val (g : Grid) (c d : Coord) :
    (g.zero c).val d = if d = c then 0 else g.val d := rfl

/-- The eight Moore-neighborhood offsets, in the iteration order of the
source's nested `for x_offs in -1..=1 { for y_offs in -1..=1 { ... } }`
loops with the `(0, 0)` center skipped. -/
def neighbor_offsets : List (ℤ × ℤ) :=
  [(-1, -1), (-1, 0), (-1, 1), (0, -1), (0, 1), (1, -1), (1, 0), (1, 1)]

/-- `get_surrounding_pixels` (src/main.rs:100-120): the in-bounds
8-connected neighbours of `(x, y)`, in loop order. -/
def get_surrounding_pixels (x y width height : ℕ) : List Coord :=
  neighbor_offsets.filterMap (fun o =>
    let offs_x : ℤ := (x : ℤ) + o.1
    let offs_y : ℤ := (y : ℤ) + o.2
    if 0 ≤ offs_x ∧ offs_x < (width : ℤ) ∧ 0 ≤ offs_y ∧ offs_y < (height : ℤ) then
      some (offs_x.toNat, offs_y.toNat)
    else none)

/-- 8-connectivity (Moore adjacency) between two coordinates: distinct
and within Chebyshev distance 1. -/
def Adj (p q : Coord) : Prop :=
  p ≠ q ∧ p.1 ≤ q.1 + 1 ∧ q.1 ≤ p.1 + 1 ∧ p.2 ≤ q.2 + 1 ∧ q.2 ≤ p.2 + 1

instance : DecidablePred fun pq : Coord × Coord => Adj pq.1 pq.2 := by
  intro pq; unfold Adj; infer_instance

lemma Adj_symm {p q : Coord} (h : Adj p q) : Adj q p := by
  obtain ⟨h0, h1, h2, h3, h4⟩ := h
  exact ⟨fun e => h0 e.symm, h2, h1, h4, h3⟩

/-- The neighbour list of `(x, y)` contains exactly the in-bounds
coordinates adjacent to `(x, y)`. -/
lemma mem_get_surrounding_pixels {x y width height : ℕ} {q : Coord} :
    q ∈ get_surrounding_pixels x y width height ↔
      q.1 < width ∧ q.2 < height ∧ Adj (x, y) q := by
  obtain ⟨qx, qy⟩ := q
  simp only [get_surrounding_pixels, neighbor_offsets, List.mem_filterMap, List.mem_cons,
    List.mem_singleton, List.not_mem_nil, or_false]
  constructor
  · rintro ⟨⟨dx, dy⟩, ho, hf⟩
    simp only [Prod.mk.injEq] at ho
    rcases ho with h | h | h | h | h | h | h | h <;> obtain ⟨rfl, rfl⟩ := h <;>
      split_ifs at hf with hc <;>
      (obtain ⟨c1, c2, c3, c4⟩ := hc
       simp only [Option.some.injEq, Prod.mk.injEq] at hf
       obtain ⟨e1, e2⟩ := hf
       refine ⟨by omega, by omega, fun hpq => ?_, by omega, by omega, by omega, by omega⟩
       simp only [Prod.mk.injEq] at hpq
       omega)
  · rintro ⟨hqx, hqy, hne, b1, b2, b3, b4⟩
    have hne' : ¬(x = qx ∧ y = qy) := fun ⟨e1, e2⟩ => hne (by simp [e1, e2])
    have hdx : qx + 1 = x ∨ qx = x ∨ qx = x + 1 := by omega
    have hdy : qy + 1 = y ∨ qy = y ∨ qy = y + 1 := by omega
    have mk_some : ∀ dx dy : ℤ,
        ((x : ℤ) + dx).toNat = qx → ((y : ℤ) + dy).toNat = qy →
        0 ≤ (x : ℤ) + dx → (x : ℤ) + dx < (width : ℤ) →
        0 ≤ (y : ℤ) + dy → (y : ℤ) + dy < (height : ℤ) →
        (if 0 ≤ (x : ℤ) + dx ∧ (x : ℤ) + dx < (width : ℤ) ∧
            0 ≤ (y : ℤ) + dy ∧ (y : ℤ) + dy < (height : ℤ) then
          some (((x : ℤ) + dx).toNat, ((y : ℤ) + dy).toNat)
        else none) = some (qx, qy) := by
      intro dx dy e1 e2 c1 c2 c3 c4
      rw [if_pos ⟨c1, c2, c3, c4⟩, e1, e2]
    rcases hdx with h1 | h1 | h1 <;> rcases hdy with h2 | h2 | h2
    · exact ⟨(-1, -1), Or.inl rfl, mk_some (-1) (-1) (by omega) (by omega)
        (by omega) (by omega) (by omega) (by omega)⟩
    · exact ⟨(-1, 0), Or.inr (Or.inl rfl), mk_some (-1) 0 (by omega) (by omega)
        (by omega) (by omega) (by omega) (by omega)⟩
    · exact ⟨(-1, 1), Or.inr (Or.inr (Or.inl rfl)), mk_some (-1) 1 (by omega) (by omega)
        (by omega) (by omega) (by omega) (by omega)⟩
    · exact ⟨(0, -1), Or.inr (Or.inr (Or.inr (Or.inl rfl))), mk_some 0 (-1) (by omega)
        (by omega) (by omega) (by omega) (by omega) (by omega)⟩
    · exact absurd ⟨h1.symm, h2.symm⟩ hne'
    · exact ⟨(0, 1), Or.inr (Or.inr (Or.inr (Or.inr (Or.inl rfl)))), mk_some 0 1 (by omega)
        (by omega) (by omega) (by omega) (by omega) (by omega)⟩
    · exact ⟨(1, -1), Or.inr (Or.inr (Or.inr (Or.inr (Or.inr (Or.inl rfl))))),
        mk_some 1 (-1) (by omega) (by omega) (by omega) (by omega) (by omega) (by omega)⟩
    · exact ⟨(1, 0), Or.inr (Or.inr (Or.inr (Or.inr (Or.inr (Or.inr (Or.inl rfl)))))),
        mk_some 1 0 (by omega) (by omega) (by omega) (by omega) (by omega) (by omega)⟩
    · exact ⟨(1, 1), Or.inr (Or.inr (Or.inr (Or.inr (Or.inr (Or.inr (Or.inr rfl)))))),
        mk_some 1 1 (by omega) (by omega) (by omega) (by omega) (by omega) (by omega)⟩

/-- The number of in-bounds pixels currently at-or-above the threshold.
Used as the fuel bound for the flood-fill loop: every loop iteration of
the source's `while let Some(..) = coords_to_be_checked.pop()` strictly
decreases `activeCount + stack length` when `1 ≤ t`. -/
def Grid.activeCount (g : Grid) (t : ℕ) : ℕ :=
  ((Finset.range g.w ×ˢ Finset.range g.h).filter (fun p => t ≤ g.val p)).card

/-- One neighbour check inside the source's
`for pixel_index in 0..surrounding_pixels.len()` loop: if the neighbour
is still at-or-above the threshold it is pushed on the stack, appended
to the line, and zeroed (src/main.rs:148-162).  The state is
`(buffer, coords_to_be_checked, line)`; the stack's top is the list
head (the source pushes/pops at the `Vec`'s end). -/
def flood_step (t : ℕ) (s : Grid × List Coord × List Coord) (n : Coord) :
    Grid × List Coord × List Coord :=
  if t ≤ s.1.val n then (s.1.zero n, n :: s.2.1, s.2.2 ++ [n]) else s

/-- Process all in-bounds neighbours of a popped coordinate, in loop
order. -/
def process_neighbors (t : ℕ) (s : Grid × List Coord × List Coord) (ns : List Coord) :
    Grid × List Coord × List Coord :=
  ns.foldl (flood_step t) s

/-- The source's `while let Some(check_coord) = coords_to_be_checked.pop()`
loop (src/main.rs:140-163), with explicit fuel.  `none` models
divergence (reachable only for `t = 0`). -/
def flood_loop (t : ℕ) : ℕ → Grid → List Coord → List Coord → Option (Grid × List Coord)
  | _, g, [], line => some (g, line)
  | 0, _, _ :: _, _ => none
  | fuel + 1, g, c :: rest, line =>
      let s := process_neighbors t (g, rest, line)
        (get_surrounding_pixels c.1 c.2 g.w g.h)
      flood_loop t fuel s.1 s.2.1 s.2.2

/-- The inner `for y in 0..buffer.height()` loop of `get_lines`
(src/main.rs:129-172): seed a new line at each still-active pixel,
flood-fill it, and keep it only if it has more than 4 pixels. -/
def scan_rows (t x : ℕ) : List ℕ → Grid → List (List Coord) →
    Option (Grid × List (List Coord))
  | [], g, acc => some (g, acc)
  | y :: ys, g, acc =>
      if t ≤ g.val (x, y) then
        match flood_loop t (g.activeCount t + 1) (g.zero (x, y)) [(x, y)] [(x, y)] with
        | none => none
        | some (g', ln) =>
            scan_rows t x ys g' (if 4 < ln.length then acc ++ [ln] else acc)
      else scan_rows t x ys g acc

/-- The outer `for x in 0..buffer.width()` loop of `get_lines`. -/
def scan_cols (t : ℕ) : List ℕ → Grid → List (List Coord) →
    Option (Grid × List (List Coord))
  | [], g, acc => some (g, acc)
  | x :: xs, g, acc =>
      match scan_rows t x (List.range g.h) g acc with
      | none => none
      | some (g', acc') => scan_cols t xs g' acc'

/-- `get_lines` (src/main.rs:124-175).  The source mutates `buffer` in
place and returns only the clusters; the model returns the final buffer
together with the clusters, and `none` models the divergence that the
source exhibits when `threshold = 0`. -/
def get_lines (g : Grid) (threshold : ℕ) : Option (Grid × List (List Coord)) :=
  scan_cols threshold (List.range g.w) g []

/-- A coordinate the cluster extractor may visit: in bounds and
at-or-above the threshold in the ORIGINAL map. -/
def ActiveAt (g : Grid) (t : ℕ) (p : Coord) : Prop :=
  p.1 < g.w ∧ p.2 < g.h ∧ t ≤ g.val p

instance (g : Grid) (t : ℕ) : DecidablePred (ActiveAt g t) := by
  intro p; unfold ActiveAt; infer_instance

/-- One hop between two active coordinates. -/
def compStep (g : Grid) (t : ℕ) (p q : Coord) : Prop :=
  ActiveAt g t p ∧ ActiveAt g t q ∧ Adj p q

/-- `SameComp g t p q`: `q` lies in the maximal 8-connected component of
at-or-above-threshold pixels containing `p`.  This is the spec-side
notion of "cluster" (glossary: a maximal 8-connected set of pixels each
with activation at or above a threshold) the claims compare against. -/
def SameComp (g : Grid) (t : ℕ) (p q : Coord) : Prop :=
  Relation.ReflTransGen (compStep g t) p q

lemma compStep_symm {g : Grid} {t : ℕ} {p q : Coord} (h : compStep g t p q) :
    compStep g t q p :=
  ⟨h.2.1, h.1, Adj_symm h.2.2⟩

lemma SameComp_trans {g : Grid} {t : ℕ} {p q r : Coord}
    (h1 : SameComp g t p q) (h2 : SameComp g t q r) : SameComp g t p r :=
  Relation.ReflTransGen.trans h1 h2

lemma SameComp_symm {g : Grid} {t : ℕ} {p q : Coord} (h : SameComp g t p q) :
    SameComp g t q p := by
  induction h with
  | refl => exact Relation.ReflTransGen.refl
  | tail _ hstep ih => exact (Relation.ReflTransGen.single (compStep_symm hstep)).trans ih

/-- Removing an active pixel decrements the active count (needs `1 ≤ t`:
for `t = 0` a zeroed pixel still counts as active, which is exactly why
the source diverges there). -/
lemma Grid.activeCount_zero_eq (g : Grid) {t : ℕ} (ht : 1 ≤ t) {c : Coord}
    (h1 : c.1 < g.w) (h2 : c.2 < g.h) (h3 : t ≤ g.val c) :
    (g.zero c).activeCount t + 1 = g.activeCount t := by
  have hmem : c ∈ (Finset.range g.w ×ˢ Finset.range g.h).filter (fun p => t ≤ g.val p) :=
    Finset.mem_filter.mpr ⟨Finset.mem_product.mpr
      ⟨Finset.mem_range.mpr h1, Finset.mem_range.mpr h2⟩, h3⟩
  have hpos : 0 < ((Finset.range g.w ×ˢ Finset.range g.h).filter
      (fun p => t ≤ g.val p)).card := Finset.card_pos.mpr ⟨c, hmem⟩
  have hset : ((Finset.range g.w ×ˢ Finset.range g.h).filter
        (fun p => t ≤ (g.zero c).val p))
      = ((Finset.range g.w ×ˢ Finset.range g.h).filter (fun p => t ≤ g.val p)).erase c := by
    ext p
    simp only [Finset.mem_filter, Finset.mem_erase, Finset.mem_product, Finset.mem_range,
      Grid.zero_val]
    constructor
    · rintro ⟨⟨hp1, hp2⟩, hp3⟩
      split_ifs at hp3 with hpc
      · omega
      · exact ⟨hpc, ⟨hp1, hp2⟩, hp3⟩
    · rintro ⟨hpc, ⟨hp1, hp2⟩, hp3⟩
      refine ⟨⟨hp1, hp2⟩, ?_⟩
      rw [if_neg hpc]
      exact hp3
  show ((Finset.range g.w ×ˢ Finset.range g.h).filter
    (fun p => t ≤ (g.zero c).val p)).card + 1 = _
  rw [hset, Finset.card_erase_of_mem hmem]
  unfold Grid.activeCount
  omega

/-- Invariant of the flood-fill state between neighbour checks, relative
to the original map `g0`, the set `C` of pixels consumed by earlier
floods, and the current seed `s`. -/
structure MidInv (g0 : Grid) (t : ℕ) (C : Coord → Prop) (s : Coord)
    (g : Grid) (stack line : List Coord) : Prop where
  dims_w : g.w = g0.w
  dims_h : g.h = g0.h
  val_consumed : ∀ p, C p ∨ p ∈ line → g.val p = 0
  val_keep : ∀ p, ¬ C p → p ∉ line → g.val p = g0.val p
  stack_sub : ∀ p ∈ stack, p ∈ line
  nodup : line.Nodup
  disjC : ∀ p ∈ line, ¬ C p
  active : ∀ p ∈ line, ActiveAt g0 t p
  conn : ∀ p ∈ line, SameComp g0 t s p
  seed_mem : s ∈ line

/-- The full loop invariant: `MidInv` plus closure of every fully
processed line pixel (one no longer on the stack) under active
adjacency. -/
structure FloodInv (g0 : Grid) (t : ℕ) (C : Coord → Prop) (s : Coord)
    (g : Grid) (stack line : List Coord)
    extends MidInv g0 t C s g stack line : Prop where
  closed : ∀ p ∈ line, p ∉ stack → ∀ q, Adj p q → ActiveAt g0 t q → C q ∨ q ∈ line

/-- What one pass of `process_neighbors` guarantees. -/
def PNRes (g0 : Grid) (t : ℕ) (C : Coord → Prop) (s : Coord) (ns : List Coord)
    (g : Grid) (stack line : List Coord) (r : Grid × List Coord × List Coord) : Prop :=
  MidInv g0 t C s r.1 r.2.1 r.2.2 ∧
  (∀ p ∈ line, p ∈ r.2.2) ∧
  (∀ p ∈ stack, p ∈ r.2.1) ∧
  (∀ p ∈ r.2.2, p ∈ line ∨ p ∈ r.2.1) ∧
  (∀ q ∈ ns, ActiveAt g0 t q → C q ∨ q ∈ r.2.2) ∧
  (r.1.activeCount t + r.2.1.length = g.activeCount t + stack.length)

lemma process_neighbors_spec (g0 : Grid) (t : ℕ) (ht : 1 ≤ t) (C : Coord → Prop)
    (s c : Coord) (hcA : ActiveAt g0 t c) (hcC : SameComp g0 t s c) :
    ∀ ns : List Coord, (∀ n ∈ ns, n.1 < g0.w ∧ n.2 < g0.h ∧ Adj c n) →
    ∀ g stack line, MidInv g0 t C s g stack line →
      PNRes g0 t C s ns g stack line (process_neighbors t (g, stack, line) ns) := by
  intro ns
  induction ns with
  | nil =>
      intro _ g stack line hInv
      exact ⟨hInv, fun p hp => hp, fun p hp => hp, fun p hp => Or.inl hp,
        fun q hq => absurd hq (List.not_mem_nil q), rfl⟩
  | cons n ns ih =>
      intro hns g stack line hInv
      have hns' : ∀ m ∈ ns, m.1 < g0.w ∧ m.2 < g0.h ∧ Adj c m :=
        fun m hm => hns m (List.mem_cons_of_mem n hm)
      have hnbounds := hns n (List.mem_cons_self n ns)
      have hstep : process_neighbors t (g, stack, line) (n :: ns)
          = process_neighbors t (flood_step t (g, stack, line) n) ns := rfl
      by_cases h : t ≤ g.val n
      · have hstepval : flood_step t (g, stack, line) n
            = (g.zero n, n :: stack, line ++ [n]) := by
          unfold flood_step
          rw [if_pos h]
        have hfresh : ¬(C n ∨ n ∈ line) := fun hc => by
          have := hInv.val_consumed n hc
          omega
        have hnotC : ¬ C n := fun hc => hfresh (Or.inl hc)
        have hnotline : n ∉ line := fun hl => hfresh (Or.inr hl)
        have hnA : ActiveAt g0 t n :=
          ⟨hnbounds.1, hnbounds.2.1, by
            rw [← hInv.val_keep n hnotC hnotline]; exact h⟩
        have hnConn : SameComp g0 t s n :=
          Relation.ReflTransGen.tail hcC ⟨hcA, hnA, hnbounds.2.2⟩
        have hInv' : MidInv g0 t C s (g.zero n) (n :: stack) (line ++ [n]) := by
          refine ⟨hInv.dims_w, hInv.dims_h, ?_, ?_, ?_, ?_, ?_, ?_, ?_, ?_⟩
          · intro p hp
            rw [Grid.zero_val]
            by_cases hpn : p = n
            · rw [if_pos hpn]
            · rw [if_neg hpn]
              refine hInv.val_consumed p ?_
              rcases hp with hp | hp
              · exact Or.inl hp
              · rcases List.mem_append.mp hp with hp | hp
                · exact Or.inr hp
                · exact absurd (List.mem_singleton.mp hp) hpn
          · intro p hpC hpL
            have hpn : p ≠ n := by
              rintro rfl
              exact hpL (List.mem_append_right line (List.mem_singleton_self p))
            rw [Grid.zero_val, if_neg hpn]
            exact hInv.val_keep p hpC (fun hl => hpL (List.mem_append_left _ hl))
          · intro p hp
            rcases List.mem_cons.mp hp with hp | hp
            · subst hp
              exact List.mem_append_right line (List.mem_singleton_self p)
            · exact List.mem_append_left _ (hInv.stack_sub p hp)
          · exact List.nodup_append.mpr ⟨hInv.nodup, List.nodup_singleton n,
              fun p hp hp' => hnotline ((List.mem_singleton.mp hp') ▸ hp)⟩
          · intro p hp
            rcases List.mem_append.mp hp with hp | hp
            · exact hInv.disjC p hp
            · exact (List.mem_singleton.mp hp) ▸ hnotC
          · intro p hp
            rcases List.mem_append.mp hp with hp | hp
            · exact hInv.active p hp
            · exact (List.mem_singleton.mp hp) ▸ hnA
          · intro p hp
            rcases List.mem_append.mp hp with hp | hp
            · exact hInv.conn p hp
            · exact (List.mem_singleton.mp hp) ▸ hnConn
          · exact List.mem_append_left _ hInv.seed_mem
        obtain ⟨rInv, rline, rstack, rsplit, rproc, rmeas⟩ := ih hns' (g.zero n) (n :: stack) (line ++ [n]) hInv'
        rw [hstep, hstepval]
        refine ⟨rInv, ?_, ?_, ?_, ?_, ?_⟩
        · exact fun p hp => rline p (List.mem_append_left _ hp)
        · exact fun p hp => rstack p (List.mem_cons_of_mem n hp)
        · intro p hp
          rcases rsplit p hp with hp' | hp'
          · rcases List.mem_append.mp hp' with hp' | hp'
            · exact Or.inl hp'
            · exact Or.inr ((List.mem_singleton.mp hp') ▸ rstack n (List.mem_cons_self n stack))
          · exact Or.inr hp'
        · intro q hq hqA
          rcases List.mem_cons.mp hq with hq | hq
          · exact Or.inr (hq ▸ rline n (List.mem_append_right line (List.mem_singleton_self n)))
          · exact rproc q hq hqA
        · have hdec : (g.zero n).activeCount t + 1 = g.activeCount t :=
            g.activeCount_zero_eq ht (hInv.dims_w ▸ hnbounds.1) (hInv.dims_h ▸ hnbounds.2.1) h
          rw [rmeas]
          simp only [List.length_cons]
          omega
      · have hstepval : flood_step t (g, stack, line) n = (g, stack, line) := by
          unfold flood_step
          rw [if_neg h]
        obtain ⟨rInv, rline, rstack, rsplit, rproc, rmeas⟩ := ih hns' g stack line hInv
        rw [hstep, hstepval]
        refine ⟨rInv, rline, rstack, rsplit, ?_, rmeas⟩
        intro q hq hqA
        rcases List.mem_cons.mp hq with hq | hq
        · subst hq
          by_cases hC : C q
          · exact Or.inl hC
          · by_cases hL : q ∈ line
            · exact Or.inr (rline q hL)
            · exact absurd ((hInv.val_keep q hC hL).symm ▸ hqA.2.2) h
        · exact rproc q hq hqA

/-- Full correctness of the flood-fill loop: with fuel at least
`activeCount + stack length` the loop terminates, the invariant holds at
the empty stack, and the line only grows. -/
lemma flood_loop_spec (g0 : Grid) (t : ℕ) (ht : 1 ≤ t) (C : Coord → Prop) (s : Coord) :
    ∀ (fuel : ℕ) (g : Grid) (stack line : List Coord),
      FloodInv g0 t C s g stack line →
      g.activeCount t + stack.length ≤ fuel →
      ∃ g' line', flood_loop t fuel g stack line = some (g', line') ∧
        FloodInv g0 t C s g' [] line' ∧ (∀ p ∈ line, p ∈ line') := by
  intro fuel
  induction fuel with
  | zero =>
      intro g stack line hInv hfuel
      match stack, hInv, hfuel with
      | [], hInv, _ => exact ⟨g, line, rfl, hInv, fun p hp => hp⟩
      | c :: rest, _, hfuel => simp [List.length_cons] at hfuel
  | succ fuel ih =>
      intro g stack line hInv hfuel
      match stack, hInv, hfuel with
      | [], hInv, _ => exact ⟨g, line, rfl, hInv, fun p hp => hp⟩
      | c :: rest, hInv, hfuel =>
        have hcline := hInv.stack_sub c (List.mem_cons_self c rest)
        have hcA := hInv.active c hcline
        have hcC := hInv.conn c hcline
        have hns : ∀ n ∈ get_surrounding_pixels c.1 c.2 g.w g.h,
            n.1 < g0.w ∧ n.2 < g0.h ∧ Adj c n := by
          intro n hn
          have h := mem_get_surrounding_pixels.mp hn
          exact ⟨hInv.dims_w ▸ h.1, hInv.dims_h ▸ h.2.1, h.2.2⟩
        have hMid : MidInv g0 t C s g rest line :=
          { hInv.toMidInv with
            stack_sub := fun p hp => hInv.stack_sub p (List.mem_cons_of_mem c hp) }
        obtain ⟨rInv, rline, rstack, rsplit, rproc, rmeas⟩ :=
          process_neighbors_spec g0 t ht C s c hcA hcC
            (get_surrounding_pixels c.1 c.2 g.w g.h) hns g rest line hMid
        have hFlood : FloodInv g0 t C s
            (process_neighbors t (g, rest, line) (get_surrounding_pixels c.1 c.2 g.w g.h)).1
            (process_neighbors t (g, rest, line) (get_surrounding_pixels c.1 c.2 g.w g.h)).2.1
            (process_neighbors t (g, rest, line) (get_surrounding_pixels c.1 c.2 g.w g.h)).2.2 := by
          refine ⟨rInv, ?_⟩
          intro p hp hpstack q hq hqA
          rcases rsplit p hp with hpl | hps
          · by_cases hpc : p = c
            · subst hpc
              have hqn : q ∈ get_surrounding_pixels p.1 p.2 g.w g.h :=
                mem_get_surrounding_pixels.mpr
                  ⟨hInv.dims_w ▸ hqA.1, hInv.dims_h ▸ hqA.2.1, hq⟩
              exact rproc q hqn hqA
            · have hpstack0 : p ∉ c :: rest := by
                intro hm
                rcases List.mem_cons.mp hm with hm | hm
                · exact hpc hm
                · exact hpstack (rstack p hm)
              rcases hInv.closed p hpl hpstack0 q hq hqA with h | h
              · exact Or.inl h
              · exact Or.inr (rline q h)
          · exact absurd hps hpstack
        have hmeas : (process_neighbors t (g, rest, line)
              (get_surrounding_pixels c.1 c.2 g.w g.h)).1.activeCount t +
            (process_neighbors t (g, rest, line)
              (get_surrounding_pixels c.1 c.2 g.w g.h)).2.1.length ≤ fuel := by
          rw [rmeas]
          simp only [List.length_cons] at hfuel
          omega
        obtain ⟨g', line', hrun, hfin, hmono⟩ := ih _ _ _ hFlood hmeas
        exact ⟨g', line', hrun, hfin, fun p hp => hmono p (rline p hp)⟩

/-- A set closed under one active-adjacency hop is closed under
reachability. -/
lemma consumed_closed_reach (g0 : Grid) (t : ℕ) (C : Coord → Prop)
    (hC : ∀ p q, C p → Adj p q → ActiveAt g0 t q → C q) :
    ∀ p q, C p → SameComp g0 t p q → C q := by
  intro p q hp h
  induction h with
  | refl => exact hp
  | tail _ hstep ih => exact hC _ _ ih hstep.2.2 hstep.2.1

/-- At loop exit, the line swallows the whole connected component of its
seed: earlier floods consumed only complete components, so the fill
cannot have been blocked by them. -/
lemma flood_maximal (g0 : Grid) (t : ℕ) (C : Coord → Prop) (s : Coord)
    (hC : ∀ p q, C p → Adj p q → ActiveAt g0 t q → C q)
    (g' : Grid) (line : List Coord) (hInv : FloodInv g0 t C s g' [] line) :
    ∀ q, SameComp g0 t s q → q ∈ line := by
  intro q h
  induction h with
  | refl => exact hInv.seed_mem
  | tail hab hstep ih =>
      rcases hInv.closed _ ih (List.not_mem_nil _) _ hstep.2.2 hstep.2.1 with hCb | hl
      · have hsb := Relation.ReflTransGen.tail hab hstep
        have hCs : C s := consumed_closed_reach g0 t C hC _ s hCb (SameComp_symm hsb)
        exact absurd hCs (hInv.disjC s hInv.seed_mem)
      · exact hl

/-- A finished line is exactly the component of each of its members. -/
lemma flood_line_comp (g0 : Grid) (t : ℕ) (C : Coord → Prop) (s : Coord)
    (hC : ∀ p q, C p → Adj p q → ActiveAt g0 t q → C q)
    (g' : Grid) (line : List Coord) (hInv : FloodInv g0 t C s g' [] line) :
    ∀ p ∈ line, ∀ q, q ∈ line ↔ SameComp g0 t p q := by
  intro p hp q
  constructor
  · intro hq
    exact SameComp_trans (SameComp_symm (hInv.conn p hp)) (hInv.conn q hq)
  · intro h
    exact flood_maximal g0 t C s hC g' line hInv q (SameComp_trans (hInv.conn p hp) h)

/-- The size of a component that coincides with a duplicate-free list. -/
lemma comp_ncard_eq_length (g0 : Grid) (t : ℕ) (p : Coord) (line : List Coord)
    (hnd : line.Nodup) (hiff : ∀ q, q ∈ line ↔ SameComp g0 t p q) :
    {q | SameComp g0 t p q}.ncard = line.length := by
  have hset : {q | SameComp g0 t p q} = ↑line.toFinset := by
    ext q
    simp only [Set.mem_setOf_eq, List.coe_toFinset]
    exact (hiff q).symm
  rw [hset, Set.ncard_coe_Finset]
  exact List.toFinset_card_of_nodup hnd

/-- Invariant of the raster scan of `get_lines`: `C` is the set of
pixels consumed so far (by returned AND discarded lines), `acc` holds
the returned lines. -/
structure ScanInv (g0 : Grid) (t : ℕ) (g : Grid) (acc : List (List Coord))
    (C : Coord → Prop) : Prop where
  dims_w : g.w = g0.w
  dims_h : g.h = g0.h
  val_consumed : ∀ p, C p → g.val p = 0
  val_keep : ∀ p, ¬ C p → g.val p = g0.val p
  Csub : ∀ p, C p → ActiveAt g0 t p
  Cclosed : ∀ p q, C p → Adj p q → ActiveAt g0 t q → C q
  acc_consumed : ∀ l ∈ acc, ∀ p ∈ l, C p
  acc_nodup : ∀ l ∈ acc, l.Nodup
  acc_big : ∀ l ∈ acc, 4 < l.length
  acc_comp : ∀ l ∈ acc, ∀ p ∈ l, ∀ q, q ∈ l ↔ SameComp g0 t p q
  acc_pair : acc.Pairwise (fun l1 l2 => ∀ p ∈ l1, p ∉ l2)
  small : ∀ p, C p → (∀ l ∈ acc, p ∉ l) → {q | SameComp g0 t p q}.ncard ≤ 4

/-- Seeding and running one flood fill preserves the scan invariant. -/
lemma scan_seed (g0 : Grid) (t : ℕ) (ht : 1 ≤ t) (g : Grid) (acc : List (List Coord))
    (C : Coord → Prop) (inv : ScanInv g0 t g acc C) (x y : ℕ)
    (hx : x < g0.w) (hy : y < g0.h) (hval : t ≤ g.val (x, y)) :
    ∃ g' ln, flood_loop t (g.activeCount t + 1) (g.zero (x, y)) [(x, y)] [(x, y)]
        = some (g', ln) ∧ (x, y) ∈ ln ∧
      ScanInv g0 t g' (if 4 < ln.length then acc ++ [ln] else acc)
        (fun p => C p ∨ p ∈ ln) := by
  have hnC : ¬ C (x, y) := fun hc => by
    have := inv.val_consumed (x, y) hc
    omega
  have hsA : ActiveAt g0 t (x, y) := ⟨hx, hy, by
    rw [← inv.val_keep (x, y) hnC]
    exact hval⟩
  have hInit : FloodInv g0 t C (x, y) (g.zero (x, y)) [(x, y)] [(x, y)] := by
    refine ⟨⟨inv.dims_w, inv.dims_h, ?_, ?_, fun p hp => hp,
      List.nodup_singleton (x, y), ?_, ?_, ?_, List.mem_singleton_self (x, y)⟩, ?_⟩
    · intro p hp
      rw [Grid.zero_val]
      by_cases hps : p = (x, y)
      · rw [if_pos hps]
      · rw [if_neg hps]
        rcases hp with hp | hp
        · exact inv.val_consumed p hp
        · exact absurd (List.mem_singleton.mp hp) hps
    · intro p hpC hpL
      have hps : p ≠ (x, y) := fun e => hpL (e ▸ List.mem_singleton_self p)
      rw [Grid.zero_val, if_neg hps]
      exact inv.val_keep p hpC
    · intro p hp
      rw [List.mem_singleton.mp hp]
      exact hnC
    · intro p hp
      rw [List.mem_singleton.mp hp]
      exact hsA
    · intro p hp
      rw [List.mem_singleton.mp hp]
      exact Relation.ReflTransGen.refl
    · intro p hp hpn
      exact absurd hp hpn
  have hxg : x < g.w := by
    rw [inv.dims_w]
    exact hx
  have hyg : y < g.h := by
    rw [inv.dims_h]
    exact hy
  have hdec : (g.zero (x, y)).activeCount t + 1 = g.activeCount t :=
    g.activeCount_zero_eq ht hxg hyg hval
  obtain ⟨g', ln, hrun, hfin, hmono⟩ :=
    flood_loop_spec g0 t ht C (x, y) (g.activeCount t + 1) (g.zero (x, y))
      [(x, y)] [(x, y)] hInit (by simp only [List.length_cons, List.length_nil]; omega)
  have hsln : (x, y) ∈ ln := hmono (x, y) (List.mem_singleton_self (x, y))
  have hiff := flood_line_comp g0 t C (x, y) inv.Cclosed g' ln hfin
  refine ⟨g', ln, hrun, hsln, ?_⟩
  refine ⟨hfin.dims_w, hfin.dims_h, hfin.val_consumed, ?_, ?_, ?_, ?_, ?_, ?_, ?_, ?_, ?_⟩
  · intro p hp
    exact hfin.val_keep p (fun h => hp (Or.inl h)) (fun h => hp (Or.inr h))
  · intro p hp
    rcases hp with hp | hp
    · exact inv.Csub p hp
    · exact hfin.active p hp
  · intro p q hp hAdj hA
    rcases hp with hp | hp
    · exact Or.inl (inv.Cclosed p q hp hAdj hA)
    · exact hfin.closed p hp (List.not_mem_nil p) q hAdj hA
  · intro l hl p hp
    split_ifs at hl with hlen
    · rcases List.mem_append.mp hl with hl | hl
      · exact Or.inl (inv.acc_consumed l hl p hp)
      · exact Or.inr ((List.mem_singleton.mp hl) ▸ hp)
    · exact Or.inl (inv.acc_consumed l hl p hp)
  · intro l hl
    split_ifs at hl with hlen
    · rcases List.mem_append.mp hl with hl | hl
      · exact inv.acc_nodup l hl
      · exact (List.mem_singleton.mp hl) ▸ hfin.nodup
    · exact inv.acc_nodup l hl
  · intro l hl
    split_ifs at hl with hlen
    · rcases List.mem_append.mp hl with hl | hl
      · exact inv.acc_big l hl
      · exact (List.mem_singleton.mp hl) ▸ hlen
    · exact inv.acc_big l hl
  · intro l hl
    split_ifs at hl with hlen
    · rcases List.mem_append.mp hl with hl | hl
      · exact inv.acc_comp l hl
      · intro p hp q
        rw [List.mem_singleton.mp hl] at hp ⊢
        exact hiff p hp q
    · exact inv.acc_comp l hl
  · split_ifs with hlen
    · refine List.pairwise_append.mpr ⟨inv.acc_pair, List.pairwise_singleton _ ln, ?_⟩
      intro l1 hl1 l2 hl2 p hp
      rw [List.mem_singleton.mp hl2]
      intro hpln
      exact hfin.disjC p hpln (inv.acc_consumed l1 hl1 p hp)
    · exact inv.acc_pair
  · intro p hp hnot
    split_ifs at hnot with hlen
    · rcases hp with hp | hp
      · exact inv.small p hp (fun l hl => hnot l (List.mem_append_left _ hl))
      · exact absurd hp (hnot ln (List.mem_append_right _ (List.mem_singleton_self ln)))
    · rcases hp with hp | hp
      · exact inv.small p hp hnot
      · have := comp_ncard_eq_length g0 t p ln hfin.nodup (hiff p hp)
        omega

/-- Scanning the rest of a column preserves the invariant and consumes
every active pixel of the scanned positions. -/
lemma scan_rows_spec (g0 : Grid) (t : ℕ) (ht : 1 ≤ t) (x : ℕ) (hx : x < g0.w) :
    ∀ (ys : List ℕ) (g : Grid) (acc : List (List Coord)) (C : Coord → Prop),
      ScanInv g0 t g acc C → (∀ y ∈ ys, y < g0.h) →
      ∃ g' acc' C', scan_rows t x ys g acc = some (g', acc') ∧
        ScanInv g0 t g' acc' C' ∧ (∀ p, C p → C' p) ∧ (∀ l ∈ acc, l ∈ acc') ∧
        (∀ y ∈ ys, ActiveAt g0 t (x, y) → C' (x, y)) := by
  intro ys
  induction ys with
  | nil =>
      intro g acc C inv _
      exact ⟨g, acc, C, rfl, inv, fun p hp => hp, fun l hl => hl,
        fun y hy => absurd hy (List.not_mem_nil y)⟩
  | cons y ys ih =>
      intro g acc C inv hys
      by_cases hval : t ≤ g.val (x, y)
      · obtain ⟨g', ln, hrun, hsln, inv'⟩ :=
          scan_seed g0 t ht g acc C inv x y hx (hys y (List.mem_cons_self y ys)) hval
        have hred : scan_rows t x (y :: ys) g acc
            = scan_rows t x ys g' (if 4 < ln.length then acc ++ [ln] else acc) := by
          rw [scan_rows, if_pos hval, hrun]
        obtain ⟨g'', acc'', C'', hrun2, inv'', hmono, haccmono, hcompl⟩ :=
          ih g' _ _ inv' (fun y' hy' => hys y' (List.mem_cons_of_mem y hy'))
        refine ⟨g'', acc'', C'', by rw [hred]; exact hrun2, inv'', ?_, ?_, ?_⟩
        · exact fun p hp => hmono p (Or.inl hp)
        · intro l hl
          apply haccmono
          split_ifs
          · exact List.mem_append_left _ hl
          · exact hl
        · intro y' hy' hA
          rcases List.mem_cons.mp hy' with rfl | hy'
          · exact hmono _ (Or.inr hsln)
          · exact hcompl y' hy' hA
      · have hred : scan_rows t x (y :: ys) g acc = scan_rows t x ys g acc := by
          rw [scan_rows, if_neg hval]
        obtain ⟨g'', acc'', C'', hrun2, inv'', hmono, haccmono, hcompl⟩ :=
          ih g acc C inv (fun y' hy' => hys y' (List.mem_cons_of_mem y hy'))
        refine ⟨g'', acc'', C'', by rw [hred]; exact hrun2, inv'', hmono, haccmono, ?_⟩
        intro y' hy' hA
        rcases List.mem_cons.mp hy' with rfl | hy'
        · refine hmono _ ?_
          by_contra hc
          rw [inv.val_keep (x, y') hc] at hval
          exact hval hA.2.2
        · exact hcompl y' hy' hA

/-- Scanning the remaining columns. -/
lemma scan_cols_spec (g0 : Grid) (t : ℕ) (ht : 1 ≤ t) :
    ∀ (xs : List ℕ) (g : Grid) (acc : List (List Coord)) (C : Coord → Prop),
      ScanInv g0 t g acc C → (∀ x ∈ xs, x < g0.w) →
      ∃ g' acc' C', scan_cols t xs g acc = some (g', acc') ∧
        ScanInv g0 t g' acc' C' ∧ (∀ p, C p → C' p) ∧ (∀ l ∈ acc, l ∈ acc') ∧
        (∀ p : Coord, ActiveAt g0 t p → p.1 ∈ xs → C' p) := by
  intro xs
  induction xs with
  | nil =>
      intro g acc C inv _
      exact ⟨g, acc, C, rfl, inv, fun p hp => hp, fun l hl => hl,
        fun p _ hp => absurd hp (List.not_mem_nil p.1)⟩
  | cons x xs ih =>
      intro g acc C inv hxs
      obtain ⟨g', acc', C', hrun1, inv', hm1, ha1, hc1⟩ :=
        scan_rows_spec g0 t ht x (hxs x (List.mem_cons_self x xs)) (List.range g.h)
          g acc C inv (fun y hy => by
            rw [← inv.dims_h]
            exact List.mem_range.mp hy)
      have hred : scan_cols t (x :: xs) g acc = scan_cols t xs g' acc' := by
        rw [scan_cols, hrun1]
      obtain ⟨g'', acc'', C'', hrun2, inv'', hm2, ha2, hc2⟩ :=
        ih g' acc' C' inv' (fun x' hx' => hxs x' (List.mem_cons_of_mem x hx'))
      refine ⟨g'', acc'', C'', by rw [hred]; exact hrun2, inv'',
        fun p hp => hm2 p (hm1 p hp), fun l hl => ha2 l (ha1 l hl), ?_⟩
      rintro ⟨px, py⟩ hA hp1
      rcases List.mem_cons.mp hp1 with rfl | hp1
      · have hy : py ∈ List.range g.h := List.mem_range.mpr (by
          rw [inv.dims_h]
          exact hA.2.1)
        exact hm2 _ (hc1 py hy hA)
      · exact hc2 (px, py) hA hp1

/-- Master lemma for `get_lines`: it terminates for `1 ≤ t`, and its
result satisfies the scan invariant for a consumed set `C` covering
every active pixel. -/
lemma get_lines_spec (g : Grid) (t : ℕ) (ht : 1 ≤ t) :
    ∃ g' lines C, get_lines g t = some (g', lines) ∧ ScanInv g t g' lines C ∧
      (∀ p, ActiveAt g t p → C p) := by
  have inv0 : ScanInv g t g [] (fun _ => False) :=
    ⟨rfl, rfl, fun p hp => hp.elim, fun p _ => rfl, fun p hp => hp.elim,
      fun p q hp => hp.elim, fun l hl => absurd hl (List.not_mem_nil l),
      fun l hl => absurd hl (List.not_mem_nil l),
      fun l hl => absurd hl (List.not_mem_nil l),
      fun l hl => absurd hl (List.not_mem_nil l), List.Pairwise.nil,
      fun p hp => hp.elim⟩
  obtain ⟨g', acc', C', hrun, inv', _, _, hcompl⟩ :=
    scan_cols_spec g t ht (List.range g.w) g [] (fun _ => False) inv0
      (fun x hx => List.mem_range.mp hx)
  exact ⟨g', acc', C', hrun, inv', fun p hp => hcompl p hp (List.mem_range.mpr hp.1)⟩

/-- In a list of pairwise-disjoint lists, a common member forces
equality. -/
lemma pairwise_mem_unique {ls : List (List Coord)}
    (h : ls.Pairwise (fun l1 l2 => ∀ p ∈ l1, p ∉ l2)) :
    ∀ l1 ∈ ls, ∀ l2 ∈ ls, ∀ p : Coord, p ∈ l1 → p ∈ l2 → l1 = l2 := by
  induction ls with
  | nil =>
      intro l1 hl1
      exact absurd hl1 (List.not_mem_nil l1)
  | cons l ls ih =>
      intro l1 hl1 l2 hl2 p hp1 hp2
      have hhead := List.pairwise_cons.mp h
      rcases List.mem_cons.mp hl1 with h1 | h1
      · rcases List.mem_cons.mp hl2 with h2 | h2
        · rw [h1, h2]
        · subst h1
          exact absurd hp2 (hhead.1 l2 h2 p hp1)
      · rcases List.mem_cons.mp hl2 with h2 | h2
        · subst h2
          exact absurd hp1 (hhead.1 l1 h1 p hp2)
        · exact ih hhead.2 l1 h1 l2 h2 p hp1 hp2

/-- C1: for every activation map and every threshold (≥ 1, else the
source diverges and returns nothing), the clusters returned by
`get_lines` are pairwise disjoint and duplicate-free, clusters with 4 or
fewer pixels are never returned, and every pixel originally at-or-above
the threshold lies in exactly one returned cluster if its maximal
8-connected component of at-or-above-threshold pixels has more than 4
pixels, and in none otherwise. -/
theorem C1_get_lines_partition (g : Grid) (t : ℕ) (ht : 1 ≤ t)
    (g' : Grid) (lines : List (List Coord))
    (hrun : get_lines g t = some (g', lines)) :
    lines.Pairwise (fun l1 l2 => ∀ p ∈ l1, p ∉ l2) ∧
    (∀ l ∈ lines, l.Nodup ∧ 4 < l.length) ∧
    (∀ p : Coord, p.1 < g.w → p.2 < g.h → t ≤ g.val p →
      ((∃ l ∈ lines, p ∈ l) ↔ 4 < {q | SameComp g t p q}.ncard) ∧
      (∀ l1 ∈ lines, ∀ l2 ∈ lines, p ∈ l1 → p ∈ l2 → l1 = l2)) := by
  obtain ⟨g'', lines'', C, hrun2, inv, hcompl⟩ := get_lines_spec g t ht
  rw [hrun2] at hrun
  simp only [Option.some.injEq, Prod.mk.injEq] at hrun
  obtain ⟨rfl, rfl⟩ := hrun
  refine ⟨inv.acc_pair, fun l hl => ⟨inv.acc_nodup l hl, inv.acc_big l hl⟩, ?_⟩
  intro p h1 h2 h3
  have hC : C p := hcompl p ⟨h1, h2, h3⟩
  constructor
  · constructor
    · rintro ⟨l, hl, hpl⟩
      have hiff := inv.acc_comp l hl p hpl
      have hlen := comp_ncard_eq_length g t p l (inv.acc_nodup l hl) hiff
      rw [hlen]
      exact inv.acc_big l hl
    · intro h4
      by_contra hne
      push_neg at hne
      have := inv.small p hC hne
      omega
  · exact fun l1 hl1 l2 hl2 hp1 hp2 => pairwise_mem_unique inv.acc_pair l1 hl1 l2 hl2 p hp1 hp2

/-- C1 witness: the theorem applied at a concrete map and threshold. -/
theorem C1_witness :
    (1 ≤ 1 ∧ ([] : List (List Coord)).Pairwise (fun l1 l2 => ∀ p ∈ l1, p ∉ l2)) :=
  ⟨by decide,
    (C1_get_lines_partition ⟨1, 1, fun _ => 0⟩ 1 (by decide) ⟨1, 1, fun _ => 0⟩ [] rfl).1⟩

/-- C5: after `get_lines` completes (threshold ≥ 1), every in-bounds
pixel originally at-or-above the threshold is zero in the final map, and
every pixel originally below the threshold keeps its original value. -/
theorem C5_get_lines_frame (g : Grid) (t : ℕ) (ht : 1 ≤ t)
    (g' : Grid) (lines : List (List Coord))
    (hrun : get_lines g t = some (g', lines)) :
    g'.w = g.w ∧ g'.h = g.h ∧
    ∀ p : Coord, p.1 < g.w → p.2 < g.h →
      (t ≤ g.val p → g'.val p = 0) ∧ (g.val p < t → g'.val p = g.val p) := by
  obtain ⟨g'', lines'', C, hrun2, inv, hcompl⟩ := get_lines_spec g t ht
  rw [hrun2] at hrun
  simp only [Option.some.injEq, Prod.mk.injEq] at hrun
  obtain ⟨rfl, rfl⟩ := hrun
  refine ⟨inv.dims_w, inv.dims_h, ?_⟩
  intro p h1 h2
  constructor
  · intro h3
    exact inv.val_consumed p (hcompl p ⟨h1, h2, h3⟩)
  · intro h3
    refine inv.val_keep p ?_
    intro hC
    have := (inv.Csub p hC).2.2
    omega

/-- C5 witness: a 2×1 map with both pixels at 3 and threshold 1; both
pixels form one (discarded, size-2) cluster and are zeroed. -/
theorem C5_witness :
    ((((⟨2, 1, fun _ => 3⟩ : Grid).zero (0, 0)).zero (1, 0)).val (0, 0) = 0) :=
  ((C5_get_lines_frame ⟨2, 1, fun _ => 3⟩ 1 (by decide)
    (((⟨2, 1, fun _ => 3⟩ : Grid).zero (0, 0)).zero (1, 0)) [] rfl).2.2
      (0, 0) (by decide) (by decide)).1 (by decide)

/-- C9: for every activation map and every threshold ≥ 1, `get_lines`
terminates (each pushed pixel is zeroed when pushed, so the built-in
fuel bound `activeCount + 1` suffices and the scan completes). -/
theorem C9_get_lines_terminates (g : Grid) (t : ℕ) (ht : 1 ≤ t) :
    (get_lines g t).isSome := by
  obtain ⟨g', lines, C, hrun, _, _⟩ := get_lines_spec g t ht
  rw [hrun]
  rfl

/-- C9 witness: termination on a concrete fully-active 2×2 map. -/
theorem C9_witness : (get_lines ⟨2, 2, fun _ => 7⟩ 1).isSome :=
  C9_get_lines_terminates ⟨2, 2, fun _ => 7⟩ 1 (by decide)

/-- An RGB pixel: three 8-bit channels, as the source's
`image::Rgb<u8>`. -/
abbrev Rgb := ℕ × ℕ × ℕ

/-- The original image buffer consumed by `difference_filter` and
`get_text_lines`. -/
structure Image where
  w : ℕ
  h : ℕ
  pix : Coord → Rgb

/-- The 24 offsets of the 5×5 neighbourhood, in source loop order
(`for x_offset in -2..=2 { for y_offset in -2..=2 { .. } }` with the
`(0, 0)` center skipped, src/main.rs:23-27). -/
def activation_offsets : List (ℤ × ℤ) :=
  (List.range 5).bind (fun i =>
    (List.range 5).filterMap (fun j =>
      let dx : ℤ := (i : ℤ) - 2
      let dy : ℤ := (j : ℤ) - 2
      if dx = 0 ∧ dy = 0 then none else some (dx, dy)))

/-- Per-neighbour "difference" (src/main.rs:39-44): per-channel absolute
difference to the center, each divided by the channel count (3), then
summed.  The source sums `f32` quotients; `ℚ` models them exactly (the
`f32` rounding of `|Δ|/3` is irrelevant to the claims proved here,
which only evaluate this function where every `Δ` is 0). -/
def pixel_difference (a b : Rgb) : ℚ :=
  (((a.1 : ℤ) - b.1).natAbs : ℚ) / 3 + (((a.2.1 : ℤ) - b.2.1).natAbs : ℚ) / 3 +
    (((a.2.2 : ℤ) - b.2.2).natAbs : ℚ) / 3

/-- `IMMEDIATE_NEIGHBOUR_WEIGHT` (src/main.rs:11).  The source's `0.6f32`
is not exactly 3/5; the deviation only ever multiplies ring averages
that are 0 in the claims proved about this function. -/
def IMMEDIATE_NEIGHBOUR_WEIGHT : ℚ := 6 / 10

/-- The body of the neighbourhood loop of `get_pixel_activation`
(src/main.rs:23-56).  Accumulator:
`(immediate_activation, checked_no_immediate,
unimmediate_activation, checked_no_unimmediate)`. -/
def activation_step (buffer : Image) (pc : Rgb) (x y : ℕ)
    (acc : ℚ × ℕ × ℚ × ℕ) (o : ℤ × ℤ) : ℚ × ℕ × ℚ × ℕ :=
  let offseted_x : ℤ := (x : ℤ) + o.1
  let offseted_y : ℤ := (y : ℤ) + o.2
  if 0 ≤ offseted_x ∧ offseted_x < (buffer.w : ℤ) ∧ 0 ≤ offseted_y ∧
      offseted_y < (buffer.h : ℤ) then
    let difference := pixel_difference pc (buffer.pix (offseted_x.toNat, offseted_y.toNat))
    if o.1 = -2 ∨ o.1 = 2 ∨ o.2 = -2 ∨ o.2 = 2 then
      (acc.1, acc.2.1, acc.2.2.1 + difference, acc.2.2.2 + 1)
    else
      (acc.1 + difference, acc.2.1 + 1, acc.2.2.1, acc.2.2.2)
  else acc

/-- `get_pixel_activation` (src/main.rs:14-61): weighted combination of
the average immediate-ring and outer-ring differences, each normalized
by the number of in-bounds neighbours actually examined.  In `ℚ`,
`0 / 0 = 0` where the source's `f32` would give NaN for an empty ring;
both rings are non-empty for every pixel of any image with at least two
rows and two columns, in particular for the ≥ 5×5 images of claim C8. -/
def get_pixel_activation (buffer : Image) (x y : ℕ) : ℚ :=
  let r := activation_offsets.foldl
    (activation_step buffer (buffer.pix (x, y)) x y) (0, 0, 0, 0)
  (r.1 / (r.2.1 : ℚ)) * IMMEDIATE_NEIGHBOUR_WEIGHT +
    (r.2.2.1 / (r.2.2.2 : ℚ)) * (1 - IMMEDIATE_NEIGHBOUR_WEIGHT)

/-- `difference as u8`: Rust's saturating `f32`-to-`u8` cast (negative
to 0, above 255 to 255, otherwise truncation toward zero). -/
def rat_to_u8 (q : ℚ) : ℕ := min 255 (max 0 q.floor).toNat

/-- `difference_filter` (src/main.rs:63-76).  The source stores the
truncated activation replicated as `[d, d, d]`; the model stores the
single intensity. -/
def difference_filter (buffer : Image) : Grid :=
  ⟨buffer.w, buffer.h, fun p => rat_to_u8 (get_pixel_activation buffer p.1 p.2)⟩

/-- One step of the neighbourhood loop on a uniform image keeps both
ring accumulators at 0. -/
lemma activation_step_uniform (img : Image) (c : Rgb)
    (huni : ∀ p : Coord, p.1 < img.w → p.2 < img.h → img.pix p = c)
    (x y : ℕ) (hx : x < img.w) (hy : y < img.h) (o : ℤ × ℤ)
    (st : ℚ × ℕ × ℚ × ℕ) (h1 : st.1 = 0) (h2 : st.2.2.1 = 0) :
    (activation_step img (img.pix (x, y)) x y st o).1 = 0 ∧
    (activation_step img (img.pix (x, y)) x y st o).2.2.1 = 0 := by
  by_cases hin : 0 ≤ (x : ℤ) + o.1 ∧ (x : ℤ) + o.1 < (img.w : ℤ) ∧
      0 ≤ (y : ℤ) + o.2 ∧ (y : ℤ) + o.2 < (img.h : ℤ)
  · obtain ⟨i1, i2, i3, i4⟩ := hin
    have hoc := huni (((x : ℤ) + o.1).toNat, ((y : ℤ) + o.2).toNat) (by omega) (by omega)
    have hpc : img.pix (x, y) = c := huni (x, y) hx hy
    have hdiff : pixel_difference (img.pix (x, y))
        (img.pix (((x : ℤ) + o.1).toNat, ((y : ℤ) + o.2).toNat)) = 0 := by
      rw [hpc, hoc]
      unfold pixel_difference
      simp
    by_cases hring : o.1 = -2 ∨ o.1 = 2 ∨ o.2 = -2 ∨ o.2 = 2
    · simp only [activation_step]
      rw [if_pos ⟨i1, i2, i3, i4⟩, if_pos hring]
      refine ⟨h1, ?_⟩
      show st.2.2.1 + _ = 0
      rw [h2, hdiff, add_zero]
    · simp only [activation_step]
      rw [if_pos ⟨i1, i2, i3, i4⟩, if_neg hring]
      refine ⟨?_, h2⟩
      show st.1 + _ = 0
      rw [h1, hdiff, add_zero]
  · simp only [activation_step]
    rw [if_neg hin]
    exact ⟨h1, h2⟩

/-- On a uniform image both ring accumulators stay 0 through the whole
fold. -/
lemma activation_fold_uniform (img : Image) (c : Rgb)
    (huni : ∀ p : Coord, p.1 < img.w → p.2 < img.h → img.pix p = c)
    (x y : ℕ) (hx : x < img.w) (hy : y < img.h) :
    ∀ (os : List (ℤ × ℤ)) (st : ℚ × ℕ × ℚ × ℕ), st.1 = 0 → st.2.2.1 = 0 →
      (os.foldl (activation_step img (img.pix (x, y)) x y) st).1 = 0 ∧
      (os.foldl (activation_step img (img.pix (x, y)) x y) st).2.2.1 = 0 := by
  intro os
  induction os with
  | nil =>
      intro st h1 h2
      exact ⟨h1, h2⟩
  | cons o os ih =>
      intro st h1 h2
      simp only [List.foldl_cons]
      obtain ⟨s1, s2⟩ := activation_step_uniform img c huni x y hx hy o st h1 h2
      exact ih _ s1 s2

/-- C8: an image of any size at least 5×5 in which every pixel has the
same color yields an activation map that is zero everywhere. -/
theorem C8_uniform_image_zero_activation (img : Image) (c : Rgb)
    (h5w : 5 ≤ img.w) (h5h : 5 ≤ img.h)
    (huni : ∀ p : Coord, p.1 < img.w → p.2 < img.h → img.pix p = c) :
    ∀ p : Coord, p.1 < img.w → p.2 < img.h → (difference_filter img).val p = 0 := by
  intro p h1 h2
  show rat_to_u8 (get_pixel_activation img p.1 p.2) = 0
  have hact : get_pixel_activation img p.1 p.2 = 0 := by
    obtain ⟨e1, e3⟩ := activation_fold_uniform img c huni p.1 p.2 h1 h2
      activation_offsets (0, 0, 0, 0) rfl rfl
    simp only [get_pixel_activation]
    rw [e1, e3]
    simp
  rw [hact]
  rfl

/-- C8 witness: the theorem applied to a concrete uniform 5×5 image. -/
theorem C8_witness :
    (difference_filter ⟨5, 5, fun _ => (7, 7, 7)⟩).val (2, 2) = 0 :=
  C8_uniform_image_zero_activation ⟨5, 5, fun _ => (7, 7, 7)⟩ (7, 7, 7)
    (by decide) (by decide) (fun p _ _ => rfl) (2, 2) (by decide) (by decide)

/-- The source's `activation_stats` struct (src/main.rs:4-9), with the
running total kept alongside.  `avg_activation` is the source's
`total_activation as f32 / activation_count as f32`; `ℚ` division by
zero yields 0 where the source's `f32` `0.0/0.0` yields a silent NaN —
that divergence at `activation_count = 0` is the subject of claim C3. -/
structure activation_stats where
  max : ℕ
  min : ℕ
  activation_count : ℕ
  total_activation : ℕ
  avg_activation : ℚ

/-- Row-major pixel enumeration (the `image` crate's
`enumerate_pixels`: `y` outer, `x` inner). -/
def enumerate_coords (w h : ℕ) : List Coord :=
  (List.range h).bind (fun y => (List.range w).map (fun x => (x, y)))

/-- The loop body of `get_activation_stats` (src/main.rs:85-96).
Accumulator: `(max, min, activation_count, total_activation)`. -/
def stats_step (g : Grid) (acc : ℕ × ℕ × ℕ × ℕ) (p : Coord) : ℕ × ℕ × ℕ × ℕ :=
  let v := g.val p
  let m := if v > acc.1 then v else acc.1
  let n := if v < acc.2.1 then v else acc.2.1
  if v > 0 then (m, n, acc.2.2.1 + 1, acc.2.2.2 + v) else (m, n, acc.2.2.1, acc.2.2.2)

/-- `get_activation_stats` (src/main.rs:78-99). -/
def get_activation_stats (g : Grid) : activation_stats :=
  let r := (enumerate_coords g.w g.h).foldl (stats_step g) (0, 255, 0, 0)
  ⟨r.1, r.2.1, r.2.2.1, r.2.2.2, (r.2.2.2 : ℚ) / (r.2.2.1 : ℚ)⟩

lemma stats_fold_count (g : Grid) :
    ∀ (ps : List Coord) (st : ℕ × ℕ × ℕ × ℕ),
      (ps.foldl (stats_step g) st).2.2.1
        = st.2.2.1 + ps.countP (fun p => decide (0 < g.val p)) := by
  intro ps
  induction ps with
  | nil =>
      intro st
      simp
  | cons p ps ih =>
      intro st
      simp only [List.foldl_cons, List.countP_cons, ih]
      have hstep : (stats_step g st p).2.2.1
          = st.2.2.1 + (if 0 < g.val p then 1 else 0) := by
        unfold stats_step
        by_cases h : g.val p > 0
        · rw [if_pos h, if_pos h]
        · rw [if_neg h, if_neg h]
          simp
      rw [hstep]
      by_cases h : 0 < g.val p <;> simp [h] <;> omega

lemma stats_fold_total (g : Grid) :
    ∀ (ps : List Coord) (st : ℕ × ℕ × ℕ × ℕ),
      st.2.2.2 = 0 → (∀ p ∈ ps, g.val p = 0) →
      (ps.foldl (stats_step g) st).2.2.2 = 0 := by
  intro ps
  induction ps with
  | nil =>
      intro st h _
      exact h
  | cons p ps ih =>
      intro st h hz
      simp only [List.foldl_cons]
      refine ih _ ?_ (fun q hq => hz q (List.mem_cons_of_mem p hq))
      have hv := hz p (List.mem_cons_self p ps)
      unfold stats_step
      rw [hv]
      simp [h]

lemma mem_enumerate_coords {w h : ℕ} {p : Coord} :
    p ∈ enumerate_coords w h ↔ p.1 < w ∧ p.2 < h := by
  obtain ⟨px, py⟩ := p
  simp only [enumerate_coords, List.mem_bind, List.mem_map, List.mem_range]
  constructor
  · rintro ⟨y, hy, x, hx, e⟩
    simp only [Prod.mk.injEq] at e
    obtain ⟨rfl, rfl⟩ := e
    exact ⟨hx, hy⟩
  · rintro ⟨hx, hy⟩
    exact ⟨py, hy, px, hx, rfl⟩

lemma nodup_enumerate_coords (w h : ℕ) : (enumerate_coords w h).Nodup := by
  unfold enumerate_coords
  rw [List.nodup_bind]
  constructor
  · intro y _
    exact (List.nodup_range w).map (fun a b e => by
      simpa using congrArg Prod.fst e)
  · refine (List.nodup_range h).imp ?_
    intro y1 y2 hne q hq1 hq2
    simp only [List.mem_map, List.mem_range] at hq1 hq2
    obtain ⟨x1, _, e1⟩ := hq1
    obtain ⟨x2, _, e2⟩ := hq2
    apply hne
    have := congrArg Prod.snd (e1.trans e2.symm)
    simpa using this

lemma stats_count_eq (g : Grid) :
    (get_activation_stats g).activation_count
      = ((Finset.range g.w ×ˢ Finset.range g.h).filter (fun p => 0 < g.val p)).card := by
  show ((enumerate_coords g.w g.h).foldl (stats_step g) (0, 255, 0, 0)).2.2.1 = _
  rw [stats_fold_count]
  rw [List.countP_eq_length_filter]
  have hnd : ((enumerate_coords g.w g.h).filter (fun p => decide (0 < g.val p))).Nodup :=
    (nodup_enumerate_coords g.w g.h).filter _
  rw [← List.toFinset_card_of_nodup hnd]
  have hset : ((enumerate_coords g.w g.h).filter
        (fun p => decide (0 < g.val p))).toFinset
      = (Finset.range g.w ×ˢ Finset.range g.h).filter (fun p => 0 < g.val p) := by
    ext p
    simp only [List.mem_toFinset, List.mem_filter, mem_enumerate_coords, Finset.mem_filter,
      Finset.mem_product, Finset.mem_range, decide_eq_true_eq]
  rw [hset]
  simp

/-- C3: `activation_count` equals exactly the number of strictly
positive pixels (this half of the claim holds); but on an all-zero map
the count — the divisor of the source's `f32` average — is 0 and the
running total is 0, so the source computes `avg_activation` as
`0.0 / 0.0`, a silent NaN, instead of an explicitly represented
"no activation" condition (this half of the claim is violated by the
code; `get_activation_stats` has no such representation). -/
theorem C3_activation_stats :
    (∀ g : Grid, (get_activation_stats g).activation_count
        = ((Finset.range g.w ×ˢ Finset.range g.h).filter (fun p => 0 < g.val p)).card) ∧
    (get_activation_stats ⟨3, 3, fun _ => 0⟩).activation_count = 0 ∧
    (get_activation_stats ⟨3, 3, fun _ => 0⟩).total_activation = 0 :=
  ⟨stats_count_eq, rfl, rfl⟩

/-- The source's `line` struct (src/main.rs:177-184). -/
structure line where
  pixels : List Coord
  top_left : Coord
  top_right : Coord
  bottom_left : Coord
  bottom_right : Coord
  area : ℕ

/-- `line::get_activation` (src/main.rs:186-190): pixel count over
area.  The source divides in `f32`; `ℚ` is exact (the `f32` quotient
can differ from the exact one only when count or area exceed 2^24 — see
the note at claim C6's theorem). -/
def line.get_activation (l : line) : ℚ := (l.pixels.length : ℚ) / (l.area : ℚ)

/-- The extremal-tracking loop body of `get_lines_stats`
(src/main.rs:206-219): four independent strict-comparison updates.
State: `(rightmost_point, leftmost_point, top_point, bottom_point)`. -/
def extremal_step (st : Coord × Coord × Coord × Coord) (point : Coord) :
    Coord × Coord × Coord × Coord :=
  ((if point.1 > st.1.1 then point else st.1),
   (if point.1 < st.2.1.1 then point else st.2.1),
   (if point.2 > st.2.2.1.2 then point else st.2.2.1),
   (if point.2 < st.2.2.2.2 then point else st.2.2.2))

/-- Per-cluster body of `get_lines_stats` (src/main.rs:201-232), with
the source's sentinel initial trackers `(0,0)`, `(99999,0)`, `(0,0)`,
`(0,99999)`.  The `u32` subtractions `dx`, `dy` cannot underflow: the
final rightmost x is `max(0, xs) ≥ min(99999, xs)` = the final leftmost
x, and likewise for y. -/
def line_of_points (line_points : List Coord) : line :=
  let r := line_points.foldl extremal_step ((0, 0), (99999, 0), (0, 0), (0, 99999))
  let dx := r.1.1 - r.2.1.1
  let dy := r.2.2.1.2 - r.2.2.2.2
  ⟨line_points, (r.2.1.1, r.2.2.1.2), (r.1.1, r.2.2.1.2),
    (r.2.1.1, r.2.2.2.2), (r.1.1, r.2.2.2.2), (dx + 1) * (dy + 1)⟩

/-- `get_lines_stats` (src/main.rs:193-235). -/
def get_lines_stats (lines_points : List (List Coord)) : List line :=
  lines_points.map line_of_points

lemma extremal_fold_fst_max : ∀ (ps : List Coord) (st : Coord × Coord × Coord × Coord),
    (ps.foldl extremal_step st).1.1 = (ps.map Prod.fst).foldl max st.1.1 := by
  intro ps
  induction ps with
  | nil => intro st; rfl
  | cons p ps ih =>
      intro st
      simp only [List.foldl_cons, List.map_cons, ih]
      congr 1
      show (if p.1 > st.1.1 then p else st.1).1 = max st.1.1 p.1
      split_ifs with h <;> omega

lemma extremal_fold_fst_min : ∀ (ps : List Coord) (st : Coord × Coord × Coord × Coord),
    (ps.foldl extremal_step st).2.1.1 = (ps.map Prod.fst).foldl min st.2.1.1 := by
  intro ps
  induction ps with
  | nil => intro st; rfl
  | cons p ps ih =>
      intro st
      simp only [List.foldl_cons, List.map_cons, ih]
      congr 1
      show (if p.1 < st.2.1.1 then p else st.2.1).1 = min st.2.1.1 p.1
      split_ifs with h <;> omega

lemma extremal_fold_snd_max : ∀ (ps : List Coord) (st : Coord × Coord × Coord × Coord),
    (ps.foldl extremal_step st).2.2.1.2 = (ps.map Prod.snd).foldl max st.2.2.1.2 := by
  intro ps
  induction ps with
  | nil => intro st; rfl
  | cons p ps ih =>
      intro st
      simp only [List.foldl_cons, List.map_cons, ih]
      congr 1
      show (if p.2 > st.2.2.1.2 then p else st.2.2.1).2 = max st.2.2.1.2 p.2
      split_ifs with h <;> omega

lemma extremal_fold_snd_min : ∀ (ps : List Coord) (st : Coord × Coord × Coord × Coord),
    (ps.foldl extremal_step st).2.2.2.2 = (ps.map Prod.snd).foldl min st.2.2.2.2 := by
  intro ps
  induction ps with
  | nil => intro st; rfl
  | cons p ps ih =>
      intro st
      simp only [List.foldl_cons, List.map_cons, ih]
      congr 1
      show (if p.2 < st.2.2.2.2 then p else st.2.2.2).2 = min st.2.2.2.2 p.2
      split_ifs with h <;> omega

lemma foldl_max_le_init : ∀ (xs : List ℕ) (a : ℕ), a ≤ xs.foldl max a := by
  intro xs
  induction xs with
  | nil => intro a; exact le_refl a
  | cons x xs ih =>
      intro a
      exact le_trans (le_max_left a x) (ih (max a x))

lemma foldl_max_ge_mem : ∀ (xs : List ℕ) (a x : ℕ), x ∈ xs → x ≤ xs.foldl max a := by
  intro xs
  induction xs with
  | nil => intro a x hx; exact absurd hx (List.not_mem_nil x)
  | cons y xs ih =>
      intro a x hx
      rcases List.mem_cons.mp hx with rfl | hx
      · exact le_trans (le_max_right a x) (foldl_max_le_init xs (max a x))
      · exact ih (max a y) x hx

lemma foldl_max_attained : ∀ (xs : List ℕ) (a : ℕ),
    xs.foldl max a = a ∨ xs.foldl max a ∈ xs := by
  intro xs
  induction xs with
  | nil => intro a; exact Or.inl rfl
  | cons x xs ih =>
      intro a
      rcases ih (max a x) with h | h
      · rcases Nat.le_total x a with hxa | hxa
        · rw [List.foldl_cons, h, max_eq_left hxa]
          exact Or.inl rfl
        · rw [List.foldl_cons, h, max_eq_right hxa]
          exact Or.inr (List.mem_cons_self x xs)
      · exact Or.inr (List.mem_cons_of_mem x h)

lemma foldl_min_ge_init : ∀ (xs : List ℕ) (a : ℕ), xs.foldl min a ≤ a := by
  intro xs
  induction xs with
  | nil => intro a; exact le_refl a
  | cons x xs ih =>
      intro a
      exact le_trans (ih (min a x)) (min_le_left a x)

lemma foldl_min_le_mem : ∀ (xs : List ℕ) (a x : ℕ), x ∈ xs → xs.foldl min a ≤ x := by
  intro xs
  induction xs with
  | nil => intro a x hx; exact absurd hx (List.not_mem_nil x)
  | cons y xs ih =>
      intro a x hx
      rcases List.mem_cons.mp hx with rfl | hx
      · exact le_trans (foldl_min_ge_init xs (min a x)) (min_le_right a x)
      · exact ih (min a y) x hx

lemma foldl_min_attained : ∀ (xs : List ℕ) (a : ℕ),
    xs.foldl min a = a ∨ xs.foldl min a ∈ xs := by
  intro xs
  induction xs with
  | nil => intro a; exact Or.inl rfl
  | cons x xs ih =>
      intro a
      rcases ih (min a x) with h | h
      · rcases Nat.le_total a x with hxa | hxa
        · rw [List.foldl_cons, h, min_eq_left hxa]
          exact Or.inl rfl
        · rw [List.foldl_cons, h, min_eq_right hxa]
          exact Or.inr (List.mem_cons_self x xs)
      · exact Or.inr (List.mem_cons_of_mem x h)

lemma foldl_max_zero_attained (xs : List ℕ) (hne : xs ≠ []) : xs.foldl max 0 ∈ xs := by
  rcases foldl_max_attained xs 0 with h | h
  · obtain ⟨x, hx⟩ := List.exists_mem_of_ne_nil xs hne
    have hle := foldl_max_ge_mem xs 0 x hx
    rw [h] at hle ⊢
    have : x = 0 := Nat.le_zero.mp hle
    rw [← this]
    exact hx
  · exact h

lemma foldl_min_sentinel_attained (xs : List ℕ) (x0 : ℕ) (hx0 : x0 ∈ xs)
    (hle : x0 ≤ 99999) : xs.foldl min 99999 ∈ xs := by
  rcases foldl_min_attained xs 99999 with h | h
  · have hbound := foldl_min_le_mem xs 99999 x0 hx0
    have : x0 = 99999 := by omega
    rw [h, ← this]
    exact hx0
  · exact h

/-- C7 counterexample: on the single-point cluster `[(100000, 0)]` the
sentinel initializer `(99999, 0)` of the leftmost tracker survives the
scan (no member has x < 99999), so `top_left.x = 99999` is not the
cluster's minimum x (100000) and `area = 2` instead of 1. -/
theorem C7_counterexample :
    ∃ l ∈ get_lines_stats [[(100000, 0)]],
      l.top_left ≠ ((100000 : ℕ), (0 : ℕ)) ∧ l.area ≠ 1 := by
  refine ⟨line_of_points [(100000, 0)], by simp [get_lines_stats], ?_, ?_⟩ <;> decide

/-- C7 (amended): for every non-empty cluster that contains at least
one point with x ≤ 99999 and at least one point with y ≤ 99999 (the
extremal trackers are initialized with the sentinels `(0,0)`,
`(99999,0)`, `(0,0)`, `(0,99999)`, so clusters entirely beyond 99999
inherit the sentinel), `get_lines_stats` produces the line with
top_left = (min x, max y), top_right = (max x, max y),
bottom_left = (min x, min y), bottom_right = (max x, min y) and
area = (max x − min x + 1) · (max y − min y + 1). -/
theorem C7_geometry_amended (lines_points : List (List Coord)) (ps : List Coord)
    (hmem : ps ∈ lines_points) (hne : ps ≠ [])
    (hx : ∃ p ∈ ps, p.1 ≤ 99999) (hy : ∃ p ∈ ps, p.2 ≤ 99999) :
    line_of_points ps ∈ get_lines_stats lines_points ∧
    (line_of_points ps).pixels = ps ∧
    ((line_of_points ps).top_left.1 ∈ ps.map Prod.fst ∧
      ∀ p ∈ ps, (line_of_points ps).top_left.1 ≤ p.1) ∧
    ((line_of_points ps).top_left.2 ∈ ps.map Prod.snd ∧
      ∀ p ∈ ps, p.2 ≤ (line_of_points ps).top_left.2) ∧
    ((line_of_points ps).top_right.1 ∈ ps.map Prod.fst ∧
      ∀ p ∈ ps, p.1 ≤ (line_of_points ps).top_right.1) ∧
    (line_of_points ps).top_right.2 = (line_of_points ps).top_left.2 ∧
    (line_of_points ps).bottom_left.1 = (line_of_points ps).top_left.1 ∧
    ((line_of_points ps).bottom_left.2 ∈ ps.map Prod.snd ∧
      ∀ p ∈ ps, (line_of_points ps).bottom_left.2 ≤ p.2) ∧
    (line_of_points ps).bottom_right
      = ((line_of_points ps).top_right.1, (line_of_points ps).bottom_left.2) ∧
    (line_of_points ps).area
      = ((line_of_points ps).top_right.1 - (line_of_points ps).top_left.1 + 1)
        * ((line_of_points ps).top_left.2 - (line_of_points ps).bottom_left.2 + 1) := by
  obtain ⟨px, hpx, hpxle⟩ := hx
  obtain ⟨py, hpy, hpyle⟩ := hy
  have hxs_ne : ps.map Prod.fst ≠ [] := by
    simp [hne]
  have hys_ne : ps.map Prod.snd ≠ [] := by
    simp [hne]
  refine ⟨List.mem_map_of_mem line_of_points hmem, rfl, ⟨?_, ?_⟩, ⟨?_, ?_⟩, ⟨?_, ?_⟩,
    rfl, rfl, ⟨?_, ?_⟩, rfl, rfl⟩
  · show (ps.foldl extremal_step ((0, 0), (99999, 0), (0, 0), (0, 99999))).2.1.1
      ∈ ps.map Prod.fst
    rw [extremal_fold_fst_min]
    exact foldl_min_sentinel_attained _ px.1 (List.mem_map_of_mem Prod.fst hpx) hpxle
  · intro p hp
    show (ps.foldl extremal_step ((0, 0), (99999, 0), (0, 0), (0, 99999))).2.1.1 ≤ p.1
    rw [extremal_fold_fst_min]
    exact foldl_min_le_mem _ _ _ (List.mem_map_of_mem Prod.fst hp)
  · show (ps.foldl extremal_step ((0, 0), (99999, 0), (0, 0), (0, 99999))).2.2.1.2
      ∈ ps.map Prod.snd
    rw [extremal_fold_snd_max]
    exact foldl_max_zero_attained _ hys_ne
  · intro p hp
    show p.2 ≤ (ps.foldl extremal_step ((0, 0), (99999, 0), (0, 0), (0, 99999))).2.2.1.2
    rw [extremal_fold_snd_max]
    exact foldl_max_ge_mem _ _ _ (List.mem_map_of_mem Prod.snd hp)
  · show (ps.foldl extremal_step ((0, 0), (99999, 0), (0, 0), (0, 99999))).1.1
      ∈ ps.map Prod.fst
    rw [extremal_fold_fst_max]
    exact foldl_max_zero_attained _ hxs_ne
  · intro p hp
    show p.1 ≤ (ps.foldl extremal_step ((0, 0), (99999, 0), (0, 0), (0, 99999))).1.1
    rw [extremal_fold_fst_max]
    exact foldl_max_ge_mem _ _ _ (List.mem_map_of_mem Prod.fst hp)
  · show (ps.foldl extremal_step ((0, 0), (99999, 0), (0, 0), (0, 99999))).2.2.2.2
      ∈ ps.map Prod.snd
    rw [extremal_fold_snd_min]
    exact foldl_min_sentinel_attained _ py.2 (List.mem_map_of_mem Prod.snd hpy) hpyle
  · intro p hp
    show (ps.foldl extremal_step ((0, 0), (99999, 0), (0, 0), (0, 99999))).2.2.2.2 ≤ p.2
    rw [extremal_fold_snd_min]
    exact foldl_min_le_mem _ _ _ (List.mem_map_of_mem Prod.snd hp)

/-- C7 witness: the amended theorem applied to a concrete two-point
cluster. -/
theorem C7_witness :
    line_of_points [((1 : ℕ), (5 : ℕ)), (3, 2)] ∈ get_lines_stats [[(1, 5), (3, 2)]] ∧
    (line_of_points [((1 : ℕ), (5 : ℕ)), (3, 2)]).pixels = [(1, 5), (3, 2)] := by
  have h := C7_geometry_amended [[(1, 5), (3, 2)]] [(1, 5), (3, 2)] (by simp)
    (by simp) ⟨(1, 5), by simp, by norm_num⟩ ⟨(3, 2), by simp, by norm_num⟩
  exact ⟨h.1, h.2.1⟩

/-- Thresholds of `sanitise_lines` (src/main.rs:237-241). -/
def AREA_THRESHOLD : ℕ := 8

def LARGER_WIDTH_THRESHOLD : ℕ := 8

def ACTIVATION_THRESHOLD : ℚ := 1 / 2

/-- `sanitise_lines` (src/main.rs:243-257): a pure filter (the source's
`println!` diagnostic has no effect on the result).  `width`/`height`
are `u32` subtractions, modelled by truncating `ℕ` subtraction; for
lines produced by `get_lines_stats` no underflow is possible
(rightmost ≥ leftmost, top ≥ bottom) and claim C6's theorem carries the
corresponding well-formedness hypotheses.  The density comparison is
`f32` in the source; the exact `ℚ` comparison agrees whenever pixel
count and area are below 2^24 (`0.5` and all such integers are exact in
`f32`). -/
def sanitise_lines (lines : List line) : List line :=
  lines.filter (fun l =>
    let width := l.top_right.1 - l.top_left.1
    let height := l.top_left.2 - l.bottom_left.2
    decide (AREA_THRESHOLD ≤ l.area ∧ LARGER_WIDTH_THRESHOLD ≤ max width height ∧
      ACTIVATION_THRESHOLD ≤ l.get_activation))

/-- C6: `sanitise_lines` returns a subsequence of its input (elements
unmodified, order preserved); a line whose corners are in well-formed
order is retained iff area ≥ 8, max(width, height) ≥ 8 and density
pixel_count/area ≥ 1/2, with width = top_right.x − top_left.x and
height = top_left.y − bottom_left.y; and any line with area < 8 is
always excluded. -/
theorem C6_sanitise_filter (lines : List line) :
    (sanitise_lines lines).Sublist lines ∧
    (∀ l ∈ lines, l.top_left.1 ≤ l.top_right.1 → l.bottom_left.2 ≤ l.top_left.2 →
      (l ∈ sanitise_lines lines ↔
        8 ≤ l.area ∧
        8 ≤ max (l.top_right.1 - l.top_left.1) (l.top_left.2 - l.bottom_left.2) ∧
        (1 : ℚ) / 2 ≤ (l.pixels.length : ℚ) / (l.area : ℚ))) ∧
    (∀ l ∈ sanitise_lines lines, 8 ≤ l.area) := by
  refine ⟨List.filter_sublist lines, ?_, ?_⟩
  · intro l hl _ _
    unfold sanitise_lines
    rw [List.mem_filter]
    simp only [decide_eq_true_eq, AREA_THRESHOLD, LARGER_WIDTH_THRESHOLD,
      ACTIVATION_THRESHOLD, line.get_activation]
    constructor
    · intro h
      exact h.2
    · intro h
      exact ⟨hl, h⟩
  · intro l hl
    unfold sanitise_lines at hl
    rw [List.mem_filter] at hl
    have h := hl.2
    simp only [decide_eq_true_eq, AREA_THRESHOLD] at h
    exact h.1

/-- A concrete line used by claim C6's witness: a 10×5 box with 25
member pixels (density exactly 1/2). -/
def sample_line : line :=
  ⟨List.replicate 25 ((0 : ℕ), (0 : ℕ)), (0, 4), (9, 4), (0, 0), (9, 0), 50⟩

/-- C6 witness: the retention criterion evaluated on a concrete line. -/
theorem C6_witness :
    sample_line ∈ sanitise_lines [sample_line] ↔
      8 ≤ sample_line.area ∧
      8 ≤ max (sample_line.top_right.1 - sample_line.top_left.1)
        (sample_line.top_left.2 - sample_line.bottom_left.2) ∧
      (1 : ℚ) / 2 ≤ (sample_line.pixels.length : ℚ) / (sample_line.area : ℚ) :=
  (C6_sanitise_filter [sample_line]).2.1 sample_line
    (List.mem_singleton_self sample_line) (by decide) (by decide)

/-- The color-distance test of `get_line_colors` (src/main.rs:274-280).
The source compares `sqrt(Σ Δc²) ≤ 30.0` in `f32`; every sum of three
squared `u8` differences (≤ 195075) and `900 = 30²` are exactly
representable in `f32`, `f32` square root is correctly rounded and
monotone, so the comparison is equivalent to the exact integer
comparison `Σ Δc² ≤ 900` used here
(`DIFFERENCE_COLOR_THRESH = 30.0`, src/main.rs:265). -/
def color_matches (a b : Rgb) : Bool :=
  ((a.1 : ℤ) - b.1) ^ 2 + ((a.2.1 : ℤ) - b.2.1) ^ 2 + ((a.2.2 : ℤ) - b.2.2) ^ 2 ≤ 900

lemma color_matches_self (a : Rgb) : color_matches a a = true := by
  unfold color_matches
  simp

lemma color_matches_comm (a b : Rgb) : color_matches a b = color_matches b a := by
  unfold color_matches
  have h : ((a.1 : ℤ) - b.1) ^ 2 + ((a.2.1 : ℤ) - b.2.1) ^ 2 + ((a.2.2 : ℤ) - b.2.2) ^ 2
      = ((b.1 : ℤ) - a.1) ^ 2 + ((b.2.1 : ℤ) - a.2.1) ^ 2 + ((b.2.2 : ℤ) - a.2.2) ^ 2 := by
    ring
  rw [h]

/-- A bucket-choice function: given the current bucket table (in
insertion order) and a pixel color, which bucket (if any) absorbs the
pixel.  The source iterates `color_freqs.keys()` of a `std::collections
::HashMap`, whose iteration order is unspecified (SipHash with a
per-process random seed); `ValidPick` captures exactly what that
iteration guarantees: some bucket whose representative is within the
color threshold is chosen when one exists, and none otherwise. -/
def ValidPick (pick : List (Rgb × ℕ) → Rgb → Option ℕ) : Prop :=
  ∀ (bs : List (Rgb × ℕ)) (c : Rgb),
    (∀ i, pick bs c = some i →
      ∃ h : i < bs.length, color_matches (bs.get ⟨i, h⟩).1 c = true) ∧
    (pick bs c = none → ∀ b ∈ bs, color_matches b.1 c = false)

/-- Increment the frequency of the bucket at index `i` (the source's
`*color_freqs.entry(other_color.clone()).or_insert(0) += 1`, which
bumps an existing key's count). -/
def bump : List (Rgb × ℕ) → ℕ → List (Rgb × ℕ)
  | [], _ => []
  | b :: bs, 0 => (b.1, b.2 + 1) :: bs
  | b :: bs, n + 1 => b :: bump bs n

/-- Processing one member pixel (the body of the outer loop of
`get_line_colors`, src/main.rs:269-289): if some existing
representative is within the threshold, that bucket's frequency is
incremented (`pick` chooses which — the source stops at the first match
in `HashMap` iteration order); otherwise a new bucket with this pixel's
exact color and frequency 1 is added. -/
def bucket_step (pick : List (Rgb × ℕ) → Rgb → Option ℕ)
    (bs : List (Rgb × ℕ)) (c : Rgb) : List (Rgb × ℕ) :=
  match pick bs c with
  | some i => bump bs i
  | none => bs ++ [(c, 1)]

/-- `get_line_colors` (src/main.rs:266-291), parameterized by the
bucket-choice function that stands for the `HashMap` iteration order. -/
def get_line_colors (pick : List (Rgb × ℕ) → Rgb → Option ℕ)
    (l : line) (buffer : Image) : List (Rgb × ℕ) :=
  (l.pixels.map (fun p => buffer.pix p)).foldl (bucket_step pick) []

/-- The insertion-order choice: the first matching bucket. -/
def first_match_pick : List (Rgb × ℕ) → Rgb → Option ℕ
  | [], _ => none
  | b :: bs, c =>
      if color_matches b.1 c then some 0
      else
        match first_match_pick bs c with
        | some i => some (i + 1)
        | none => none

/-- The reverse choice: the last matching bucket (a different but
equally valid stand-in for the unspecified hash order, used to exhibit
claim C2's order dependence). -/
def last_match_pick : List (Rgb × ℕ) → Rgb → Option ℕ
  | [], _ => none
  | b :: bs, c =>
      match last_match_pick bs c with
      | some i => some (i + 1)
      | none => if color_matches b.1 c then some 0 else none

lemma first_match_pick_valid : ValidPick first_match_pick := by
  intro bs c
  induction bs with
  | nil =>
      refine ⟨fun i hi => ?_, fun _ b hb => absurd hb (List.not_mem_nil b)⟩
      simp [first_match_pick] at hi
  | cons b bs ih =>
      constructor
      · intro i hi
        unfold first_match_pick at hi
        by_cases hm : color_matches b.1 c = true
        · rw [if_pos hm] at hi
          cases hi
          exact ⟨Nat.succ_pos _, hm⟩
        · rw [if_neg hm] at hi
          cases hrec : first_match_pick bs c with
          | none => rw [hrec] at hi; cases hi
          | some j =>
              rw [hrec] at hi
              cases hi
              obtain ⟨hj, hmj⟩ := ih.1 j hrec
              exact ⟨Nat.succ_lt_succ hj, hmj⟩
      · intro hnone b' hb'
        unfold first_match_pick at hnone
        by_cases hm : color_matches b.1 c = true
        · rw [if_pos hm] at hnone
          cases hnone
        · rw [if_neg hm] at hnone
          rcases List.mem_cons.mp hb' with rfl | hb'
          · exact Bool.eq_false_iff.mpr hm
          · cases hrec : first_match_pick bs c with
            | none => exact ih.2 hrec b' hb'
            | some j => rw [hrec] at hnone; cases hnone

lemma last_match_pick_valid : ValidPick last_match_pick := by
  intro bs c
  induction bs with
  | nil =>
      refine ⟨fun i hi => ?_, fun _ b hb => absurd hb (List.not_mem_nil b)⟩
      simp [last_match_pick] at hi
  | cons b bs ih =>
      constructor
      · intro i hi
        unfold last_match_pick at hi
        cases hrec : last_match_pick bs c with
        | some j =>
            rw [hrec] at hi
            cases hi
            obtain ⟨hj, hmj⟩ := ih.1 j hrec
            exact ⟨Nat.succ_lt_succ hj, hmj⟩
        | none =>
            rw [hrec] at hi
            by_cases hm : color_matches b.1 c = true
            · rw [if_pos hm] at hi
              cases hi
              exact ⟨Nat.succ_pos _, hm⟩
            · rw [if_neg hm] at hi
              cases hi
      · intro hnone b' hb'
        unfold last_match_pick at hnone
        cases hrec : last_match_pick bs c with
        | some j => rw [hrec] at hnone; cases hnone
        | none =>
            rw [hrec] at hnone
            by_cases hm : color_matches b.1 c = true
            · rw [if_pos hm] at hnone
              cases hnone
            · rcases List.mem_cons.mp hb' with rfl | hb'
              · exact Bool.eq_false_iff.mpr hm
              · exact ih.2 hrec b' hb'

lemma bump_map_fst : ∀ (bs : List (Rgb × ℕ)) (i : ℕ),
    (bump bs i).map Prod.fst = bs.map Prod.fst := by
  intro bs
  induction bs with
  | nil => intro i; rfl
  | cons b bs ih =>
      intro i
      cases i with
      | zero => rfl
      | succ n => simp [bump, ih n]

lemma bump_length : ∀ (bs : List (Rgb × ℕ)) (i : ℕ), (bump bs i).length = bs.length := by
  intro bs
  induction bs with
  | nil => intro i; rfl
  | cons b bs ih =>
      intro i
      cases i with
      | zero => rfl
      | succ n => simp [bump, ih n]

/-- Total pixel mass of a bucket table. -/
def total_freq (bs : List (Rgb × ℕ)) : ℕ := (bs.map Prod.snd).sum

lemma bump_total : ∀ (bs : List (Rgb × ℕ)) (i : ℕ), i < bs.length →
    total_freq (bump bs i) = total_freq bs + 1 := by
  intro bs
  induction bs with
  | nil =>
      intro i hi
      simp at hi
  | cons b bs ih =>
      intro i hi
      cases i with
      | zero =>
          show (b.2 + 1) + total_freq bs = (b.2 + total_freq bs) + 1
          omega
      | succ n =>
          show b.2 + total_freq (bump bs n) = (b.2 + total_freq bs) + 1
          have := ih n (by simpa using hi)
          omega

lemma bucket_step_total (pick : List (Rgb × ℕ) → Rgb → Option ℕ) (hv : ValidPick pick)
    (bs : List (Rgb × ℕ)) (c : Rgb) :
    total_freq (bucket_step pick bs c) = total_freq bs + 1 := by
  unfold bucket_step
  cases hpick : pick bs c with
  | some i =>
      obtain ⟨hi, _⟩ := (hv bs c).1 i hpick
      exact bump_total bs i hi
  | none =>
      show total_freq (bs ++ [(c, 1)]) = total_freq bs + 1
      unfold total_freq
      simp

lemma bucket_fold_total (pick : List (Rgb × ℕ) → Rgb → Option ℕ) (hv : ValidPick pick) :
    ∀ (cs : List Rgb) (bs : List (Rgb × ℕ)),
      total_freq (cs.foldl (bucket_step pick) bs) = total_freq bs + cs.length := by
  intro cs
  induction cs with
  | nil => intro bs; simp
  | cons c cs ih =>
      intro bs
      simp only [List.foldl_cons, List.length_cons, ih, bucket_step_total pick hv]
      omega

lemma bucket_step_length_le (pick : List (Rgb × ℕ) → Rgb → Option ℕ)
    (bs : List (Rgb × ℕ)) (c : Rgb) :
    bs.length ≤ (bucket_step pick bs c).length := by
  unfold bucket_step
  cases pick bs c with
  | some i => rw [bump_length]
  | none => simp

lemma bucket_fold_length_le (pick : List (Rgb × ℕ) → Rgb → Option ℕ) :
    ∀ (cs : List Rgb) (bs : List (Rgb × ℕ)),
      bs.length ≤ (cs.foldl (bucket_step pick) bs).length := by
  intro cs
  induction cs with
  | nil => intro bs; exact le_refl _
  | cons c cs ih =>
      intro bs
      exact le_trans (bucket_step_length_le pick bs c) (ih _)

/-- The representative-list evolution: a new representative is appended
exactly when no existing one is within the threshold.  This is
independent of the bucket-choice function, because representatives are
never modified. -/
def reps_step (rs : List Rgb) (c : Rgb) : List Rgb :=
  if rs.any (fun r => color_matches r c) then rs else rs ++ [c]

lemma bucket_step_reps (pick : List (Rgb × ℕ) → Rgb → Option ℕ) (hv : ValidPick pick)
    (bs : List (Rgb × ℕ)) (c : Rgb) :
    (bucket_step pick bs c).map Prod.fst = reps_step (bs.map Prod.fst) c := by
  unfold bucket_step reps_step
  cases hpick : pick bs c with
  | some i =>
      obtain ⟨hi, hm⟩ := (hv bs c).1 i hpick
      rw [bump_map_fst, if_pos]
      rw [List.any_eq_true]
      exact ⟨(bs.get ⟨i, hi⟩).1, List.mem_map_of_mem Prod.fst (bs.get_mem i hi), hm⟩
  | none =>
      have hall := (hv bs c).2 hpick
      have hany : ((bs.map Prod.fst).any (fun r => color_matches r c)) = false := by
        rw [List.any_eq_false]
        intro r hr
        obtain ⟨b, hb, rfl⟩ := List.mem_map.mp hr
        simp [hall b hb]
      rw [hany, if_neg (by simp), List.map_append]
      rfl

lemma bucket_fold_reps (pick : List (Rgb × ℕ) → Rgb → Option ℕ) (hv : ValidPick pick) :
    ∀ (cs : List Rgb) (bs : List (Rgb × ℕ)),
      (cs.foldl (bucket_step pick) bs).map Prod.fst
        = cs.foldl reps_step (bs.map Prod.fst) := by
  intro cs
  induction cs with
  | nil => intro bs; rfl
  | cons c cs ih =>
      intro bs
      simp only [List.foldl_cons, ih, bucket_step_reps pick hv]

/-- The bucket count is the same for every valid choice function: it
only depends on the representative evolution. -/
lemma bucket_fold_length_eq_reps (pick : List (Rgb × ℕ) → Rgb → Option ℕ)
    (hv : ValidPick pick) (cs : List Rgb) :
    (cs.foldl (bucket_step pick) []).length = (cs.foldl reps_step []).length := by
  have h := bucket_fold_reps pick hv cs []
  have hlen := congrArg List.length h
  rw [List.length_map] at hlen
  exact hlen

lemma reps_step_sub (rs : List Rgb) (c : Rgb) :
    ∀ d ∈ rs, d ∈ reps_step rs c := by
  intro d hd
  unfold reps_step
  split_ifs
  · exact hd
  · exact List.mem_append_left _ hd

lemma reps_fold_mono : ∀ (cs : List Rgb) (rs : List Rgb),
    ∀ d ∈ rs, d ∈ cs.foldl reps_step rs := by
  intro cs
  induction cs with
  | nil => intro rs d hd; exact hd
  | cons c cs ih =>
      intro rs d hd
      exact ih _ d (reps_step_sub rs c d hd)

lemma reps_fold_nodup : ∀ (cs : List Rgb) (rs : List Rgb),
    rs.Nodup → (cs.foldl reps_step rs).Nodup := by
  intro cs
  induction cs with
  | nil => intro rs h; exact h
  | cons c cs ih =>
      intro rs h
      refine ih _ ?_
      unfold reps_step
      split_ifs with hany
      · exact h
      · refine List.nodup_append.mpr ⟨h, List.nodup_singleton c, ?_⟩
        intro d hd hd'
        rw [List.mem_singleton.mp hd'] at hd
        have hc : (rs.any fun r => color_matches r c) = true :=
          List.any_eq_true.mpr ⟨c, hd, color_matches_self c⟩
        exact hany hc

lemma reps_fold_pair_sub (a b : Rgb) : ∀ (cs : List Rgb) (rs : List Rgb),
    (∀ c ∈ cs, c = a ∨ c = b) → (∀ d ∈ rs, d = a ∨ d = b) →
    ∀ d ∈ cs.foldl reps_step rs, d = a ∨ d = b := by
  intro cs
  induction cs with
  | nil => intro rs _ hr d hd; exact hr d hd
  | cons c cs ih =>
      intro rs hc hr d hd
      refine ih _ (fun c' hc' => hc c' (List.mem_cons_of_mem c hc')) ?_ d hd
      intro d' hd'
      unfold reps_step at hd'
      split_ifs at hd' with hany
      · exact hr d' hd'
      · rcases List.mem_append.mp hd' with hd' | hd'
        · exact hr d' hd'
        · rw [List.mem_singleton.mp hd']
          exact hc c (List.mem_cons_self c cs)

lemma reps_fold_present (a b : Rgb) (hnm : color_matches a b = false) :
    ∀ (cs : List Rgb) (rs : List Rgb),
      (∀ c ∈ cs, c = a ∨ c = b) → (∀ d ∈ rs, d = a ∨ d = b) →
      ∀ c ∈ cs, c ∈ cs.foldl reps_step rs := by
  have hnm' : color_matches b a = false := by
    rw [color_matches_comm]
    exact hnm
  intro cs
  induction cs with
  | nil => intro rs _ _ c hc; exact absurd hc (List.not_mem_nil c)
  | cons c0 cs ih =>
      intro rs hc hr c hc0
      have hrs' : ∀ d ∈ reps_step rs c0, d = a ∨ d = b := by
        intro d hd
        unfold reps_step at hd
        split_ifs at hd with hany
        · exact hr d hd
        · rcases List.mem_append.mp hd with hd | hd
          · exact hr d hd
          · rw [List.mem_singleton.mp hd]
            exact hc c0 (List.mem_cons_self c0 cs)
      rcases List.mem_cons.mp hc0 with rfl | hc0
      · refine reps_fold_mono cs _ c ?_
        unfold reps_step
        split_ifs with hany
        · obtain ⟨d, hd, hmd⟩ := List.any_eq_true.mp hany
          have hdc : d = c := by
            rcases hr d hd with rfl | rfl <;> rcases hc c (List.mem_cons_self c cs) with rfl | rfl
            · rfl
            · rw [hnm] at hmd
              cases hmd
            · rw [hnm'] at hmd
              cases hmd
            · rfl
          rw [← hdc]
          exact hd
        · exact List.mem_append_right _ (List.mem_singleton_self c)
      · exact ih (reps_step rs c0) (fun c' hc' => hc c' (List.mem_cons_of_mem c0 hc'))
          hrs' c hc0

/-- With pixel colors drawn from exactly two mutually non-matching
colors, both present, the representative list ends up with exactly the
two of them. -/
lemma reps_fold_two_colors (a b : Rgb) (hne : a ≠ b) (hnm : color_matches a b = false)
    (cs : List Rgb) (hsub : ∀ c ∈ cs, c = a ∨ c = b)
    (ha : a ∈ cs) (hb : b ∈ cs) :
    (cs.foldl reps_step []).length = 2 := by
  have hnd : (cs.foldl reps_step []).Nodup := reps_fold_nodup cs [] (List.nodup_nil)
  have hsub' : ∀ d ∈ cs.foldl reps_step [], d = a ∨ d = b :=
    reps_fold_pair_sub a b cs [] hsub (fun d hd => absurd hd (List.not_mem_nil d))
  have hain : a ∈ cs.foldl reps_step [] :=
    reps_fold_present a b hnm cs [] hsub (fun d hd => absurd hd (List.not_mem_nil d)) a ha
  have hbin : b ∈ cs.foldl reps_step [] :=
    reps_fold_present a b hnm cs [] hsub (fun d hd => absurd hd (List.not_mem_nil d)) b hb
  have hset : (cs.foldl reps_step []).toFinset = {a, b} := by
    ext d
    simp only [List.mem_toFinset, Finset.mem_insert, Finset.mem_singleton]
    constructor
    · exact hsub' d
    · rintro (rfl | rfl)
      · exact hain
      · exact hbin
  have hcard := List.toFinset_card_of_nodup hnd
  rw [hset] at hcard
  rw [← hcard, Finset.card_insert_of_not_mem (by simp [hne]), Finset.card_singleton]

/-- `get_most_common_color` (src/main.rs:293-303), folded over the
table in insertion order.  The source iterates the `HashMap` in its
unspecified hash order with a strict `>` update, so frequency ties go
to whichever tied bucket that order yields first; claim C2 exhibits the
resulting order dependence. -/
def get_most_common_color (color_freqs : List (Rgb × ℕ)) : Rgb :=
  (color_freqs.foldl
    (fun (acc : Rgb × ℕ) bf => if bf.2 > acc.2 then (bf.1, bf.2) else acc)
    ((0, 0, 0), 0)).1

/-- `text_line` (src/main.rs:259-263); `text` is the always-empty
placeholder. -/
structure text_line where
  tline : line
  stroke_color : Rgb
  text : String

/-- `get_text_lines` (src/main.rs:306-326), parameterized by the
bucket-choice function standing for the `HashMap` iteration order. -/
def get_text_lines (pick : List (Rgb × ℕ) → Rgb → Option ℕ)
    (lines : List line) (img_buffer : Image) : List text_line :=
  lines.filterMap (fun l =>
    let color_freqs := get_line_colors pick l img_buffer
    if color_freqs.length = 2 then
      some ⟨l, get_most_common_color color_freqs, ""⟩
    else none)

/-- C10: for every line with at least one member pixel, the color table
is non-empty and its frequencies sum to exactly the number of member
pixels, under every valid bucket-choice function (hence under whatever
iteration order the source's `HashMap` exhibits). -/
theorem C10_color_table_mass (pick : List (Rgb × ℕ) → Rgb → Option ℕ)
    (hv : ValidPick pick) (l : line) (buffer : Image) (hne : l.pixels ≠ []) :
    get_line_colors pick l buffer ≠ [] ∧
    total_freq (get_line_colors pick l buffer) = l.pixels.length := by
  constructor
  · unfold get_line_colors
    match hm : l.pixels.map (fun p => buffer.pix p), hne with
    | [], hne =>
        exact absurd (List.map_eq_nil.mp hm) hne
    | c :: cs, _ =>
        intro hempty
        have h1 : 1 ≤ (bucket_step pick [] c).length := by
          unfold bucket_step
          cases hpick : pick [] c with
          | some i =>
              obtain ⟨hi, _⟩ := (hv [] c).1 i hpick
              simp at hi
          | none => simp
        have := le_trans h1 (bucket_fold_length_le pick cs (bucket_step pick [] c))
        rw [List.foldl_cons] at hempty
        rw [hempty] at this
        simp at this
  · unfold get_line_colors
    rw [bucket_fold_total pick hv]
    simp [total_freq]

/-- C10 witness: the theorem applied at a concrete line and image. -/
theorem C10_witness :
    get_line_colors first_match_pick sample_line ⟨1, 1, fun _ => (0, 0, 0)⟩ ≠ [] ∧
    total_freq (get_line_colors first_match_pick sample_line ⟨1, 1, fun _ => (0, 0, 0)⟩)
      = sample_line.pixels.length :=
  C10_color_table_mass first_match_pick first_match_pick_valid sample_line
    ⟨1, 1, fun _ => (0, 0, 0)⟩ (by simp [sample_line])

/-- A two-pixel cluster whose two distinct colors are only distance 10
apart (within the threshold 30). -/
def near_two_line : line := ⟨[(0, 0), (1, 0)], (0, 0), (1, 0), (0, 0), (1, 0), 2⟩

/-- The image under `near_two_line`: colors (0,0,0) and (10,0,0). -/
def near_two_img : Image :=
  ⟨2, 1, fun p => if p = (1, 0) then (10, 0, 0) else (0, 0, 0)⟩

/-- C4 counterexample: a cluster whose pixels take on exactly 2
distinct colors no two further than 30 apart is NOT classified text —
the second color merges into the first bucket, leaving a single bucket,
so no `text_line` is produced (the claim's parenthetical has the
direction of the distance condition backwards). -/
theorem C4_counterexample :
    ((0, 0, 0) : Rgb) ≠ (10, 0, 0) ∧
    color_matches (0, 0, 0) (10, 0, 0) = true ∧
    (near_two_line.pixels.map (fun p => near_two_img.pix p))
      = [(0, 0, 0), (10, 0, 0)] ∧
    get_text_lines first_match_pick [near_two_line] near_two_img = [] :=
  ⟨by decide, by decide, rfl, rfl⟩

/-- C4 (amended): under every valid bucket-choice function, a sanitized
line yields a `text_line` iff its color table has exactly 2 buckets
(not 1, not 3 or more); in particular a cluster whose pixels take on
exactly 2 distinct colors MORE than 30 apart (so they do not merge into
one bucket) is classified text; and every produced `text_line` carries
the empty text string.  (The claim as frozen says "no two further than
30 apart", which makes such a cluster collapse to one bucket and not be
classified — see the counterexample.) -/
theorem C4_text_classification_amended (pick : List (Rgb × ℕ) → Rgb → Option ℕ)
    (hv : ValidPick pick) (lines : List line) (img : Image) :
    (∀ l ∈ lines,
      ((∃ tl ∈ get_text_lines pick lines img, tl.tline = l) ↔
        (get_line_colors pick l img).length = 2)) ∧
    (∀ l ∈ lines, ∀ a b : Rgb, a ≠ b → color_matches a b = false →
      (∀ p ∈ l.pixels, img.pix p = a ∨ img.pix p = b) →
      (∃ p ∈ l.pixels, img.pix p = a) → (∃ p ∈ l.pixels, img.pix p = b) →
      ∃ tl ∈ get_text_lines pick lines img, tl.tline = l) ∧
    (∀ tl ∈ get_text_lines pick lines img, tl.text = "") := by
  have hiff : ∀ l ∈ lines,
      ((∃ tl ∈ get_text_lines pick lines img, tl.tline = l) ↔
        (get_line_colors pick l img).length = 2) := by
    intro l hl
    constructor
    · rintro ⟨tl, htl, hline⟩
      unfold get_text_lines at htl
      obtain ⟨l', hl', hf⟩ := List.mem_filterMap.mp htl
      dsimp only [] at hf
      split_ifs at hf with hcond
      cases hf
      rw [← hline]
      exact hcond
    · intro hlen
      refine ⟨⟨l, get_most_common_color (get_line_colors pick l img), ""⟩, ?_, rfl⟩
      unfold get_text_lines
      refine List.mem_filterMap.mpr ⟨l, hl, ?_⟩
      dsimp only []
      rw [if_pos hlen]
  refine ⟨hiff, ?_, ?_⟩
  · intro l hl a b hne hnm hsub ha hb
    refine (hiff l hl).mpr ?_
    have hcs : ∀ c ∈ l.pixels.map (fun p => img.pix p), c = a ∨ c = b := by
      intro c hc
      obtain ⟨p, hp, rfl⟩ := List.mem_map.mp hc
      exact hsub p hp
    obtain ⟨pa, hpa, hpaa⟩ := ha
    obtain ⟨pb, hpb, hpbb⟩ := hb
    have hain : a ∈ l.pixels.map (fun p => img.pix p) :=
      List.mem_map.mpr ⟨pa, hpa, hpaa⟩
    have hbin : b ∈ l.pixels.map (fun p => img.pix p) :=
      List.mem_map.mpr ⟨pb, hpb, hpbb⟩
    unfold get_line_colors
    rw [bucket_fold_length_eq_reps pick hv]
    exact reps_fold_two_colors a b hne hnm _ hcs hain hbin
  · intro tl htl
    unfold get_text_lines at htl
    obtain ⟨l', _, hf⟩ := List.mem_filterMap.mp htl
    dsimp only [] at hf
    split_ifs at hf with hcond
    cases hf
    rfl

/-- A two-pixel cluster whose two distinct colors are distance 100
apart (beyond the threshold 30). -/
def far_two_line : line := ⟨[(0, 0), (1, 0)], (0, 0), (1, 0), (0, 0), (1, 0), 2⟩

/-- The image under `far_two_line`: colors (0,0,0) and (100,0,0). -/
def far_two_img : Image :=
  ⟨2, 1, fun p => if p = (1, 0) then (100, 0, 0) else (0, 0, 0)⟩

/-- C4 witness: the amended theorem classifies a concrete genuinely
two-tone line as text. -/
theorem C4_witness :
    ∃ tl ∈ get_text_lines first_match_pick [far_two_line] far_two_img,
      tl.tline = far_two_line :=
  (C4_text_classification_amended first_match_pick first_match_pick_valid
      [far_two_line] far_two_img).2.1 far_two_line
    (List.mem_singleton_self far_two_line) (0, 0, 0) (100, 0, 0)
    (by decide) (by decide) (by decide)
    ⟨(0, 0), by decide, by decide⟩ ⟨(1, 0), by decide, by decide⟩

/-- Pixel data for claim C2: colors A=(0,0,0), B=(60,0,0), C=(30,0,0);
C is within the threshold of both A and B, so which bucket absorbs it
depends on the bucket scan order. -/
def hash_line : line := ⟨[(0, 0), (1, 0), (2, 0)], (0, 0), (2, 0), (0, 0), (2, 0), 3⟩

/-- The image under `hash_line`. -/
def hash_img : Image :=
  ⟨3, 1, fun p =>
    if p = (1, 0) then (60, 0, 0) else if p = (2, 0) then (30, 0, 0) else (0, 0, 0)⟩

/-- C2: the source scans bucket representatives by iterating
`HashMap::keys()`, whose order is unspecified (seed-randomized), not
insertion order as the claim states.  The first-match (insertion-order)
and last-match choices both satisfy everything the `HashMap` iteration
guarantees, yet they produce different bucket tables and different
stroke colors on a concrete line — the behaviour the claim prescribes
is not determined by the code. -/
theorem C2_hash_order_dependence :
    ValidPick first_match_pick ∧ ValidPick last_match_pick ∧
    get_most_common_color (get_line_colors first_match_pick hash_line hash_img)
      ≠ get_most_common_color (get_line_colors last_match_pick hash_line hash_img) :=
  ⟨first_match_pick_valid, last_match_pick_valid, by decide⟩
